import Mathlib

/-!
# Verification of the tolerant Google-Trends CSV ingestion parser

Shallow embedding of `load_trends_csv` from `app.py` of the
google-trends-dashboard repository, together with proofs settling the
frozen claims about its specification.

Modelling conventions:
* Text is represented as `List Char` (`Str`); the byte-decoding step
  (lines 41-45 of `app.py`) is total (the second decode uses
  `errors="ignore"`) and is treated as already performed, so the parser
  model receives decoded text.
* `pd.read_csv` is modelled without quoting rules: cells are split on the
  delimiter.  `sep=None, engine="python"` delimiter sniffing is modelled
  as picking the first of `',', '\t', ';'` (the sniffer's preference
  order) occurring in the first non-blank line; when none occurs the
  sniffing call fails and the code's `except` branch re-reads with the
  default comma separator.  `read_csv` raises on a data row with more
  fields than the header (both engines do), skips blank lines, turns an
  empty field into a missing value (NaN), pads short rows with missing
  values, names an empty header field `Unnamed: i` and renames the k-th
  duplicate occurrence of a header name to `name.k`.  It raises
  `EmptyDataError` when no non-blank line is left.
* `pd.to_datetime(col, errors="coerce", utc=True).dt.tz_localize(None)`
  is modelled after pandas >= 2.0 semantics: the datetime format is
  inferred from the first non-null element (ISO `YYYY-MM-DD`, or a
  slashed date, day-first exactly when the first field exceeds 12) and
  then applied to the whole column, failures coercing to null; when no
  format can be guessed each element is parsed individually
  (dateutil-style: ISO, else slashed with day-first applied when the
  first field exceeds 12).  Timezone handling (`utc=True` /
  `tz_localize(None)`) is the identity on the zone-free dates modelled
  here and pandas timestamp range limits are not modelled.
* `pd.to_numeric(s, errors="coerce")` always produces a column of
  numeric dtype (float64/int64), unparseable entries becoming NaN; the
  numbers themselves are modelled as `ℚ`.
* DataFrame columns are addressed positionally; this coincides with the
  label-based pandas operations whenever the column labels are distinct.
  When the rename of the first column to `Date` plus the name cleaning
  makes labels collide, the label-based steps raise (`pd.to_datetime` on
  the two-column `df["Date"]` of line 103, the `.str` accessor on the
  DataFrame `df[c]` of line 108); `dupLabels` captures exactly those
  collisions and the pipeline maps them to an error.
* `df.sort_values("Date")` is modelled as a stable ascending sort.
-/

abbrev Str := List Char

def strL (s : String) : Str := s.toList

/-- Python `str.lower` (ASCII behaviour). -/
def lowerL (s : Str) : Str := s.map Char.toLower

/-- Python `str.strip` (drop surrounding whitespace). -/
def trimL (s : Str) : Str :=
  ((s.dropWhile Char.isWhitespace).reverse.dropWhile Char.isWhitespace).reverse

/-- Split a character list at every occurrence of `sep` (like Python `str.split`). -/
def splitOnC (sep : Char) : Str → List Str
  | [] => [[]]
  | c :: cs =>
    match splitOnC sep cs with
    | [] => [[c]]
    | t :: ts => if c = sep then [] :: t :: ts else (c :: t) :: ts

/-- `joinSep c [a, b, ...] = a ++ c ++ b ++ c ++ ...` (inverse of `splitOnC`). -/
def joinSep (c : Char) : List Str → Str
  | [] => []
  | [l] => l
  | l :: ls => l ++ c :: joinSep c ls

/-- Python `str.splitlines` restricted to `'\n'` separators:
no trailing empty piece when the text ends in a newline, and `[]` on empty text. -/
def splitLines (t : Str) : List Str :=
  if t = [] then []
  else if t.getLast? = some '\n' then (splitOnC '\n' t).dropLast
  else splitOnC '\n' t

/-- Substring test (Python `in` on strings). -/
def containsSub (pat s : Str) : Bool := s.tails.any (fun t => pat.isPrefixOf t)

/-- A calendar date; the model's stand-in for a (zone-naive) pandas timestamp. -/
structure Date where
  y : Nat
  m : Nat
  d : Nat
  deriving DecidableEq

def isLeap (y : Nat) : Bool := y % 4 == 0 && (y % 100 != 0 || y % 400 == 0)

def daysInMonth (y m : Nat) : Nat :=
  if m == 2 then (if isLeap y then 29 else 28)
  else if m == 4 || m == 6 || m == 9 || m == 11 then 30
  else 31

def mkValidDate (y m d : Nat) : Option Date :=
  if 1 ≤ m ∧ m ≤ 12 ∧ 1 ≤ d ∧ d ≤ daysInMonth y m then some ⟨y, m, d⟩ else none

def digCharVal (c : Char) : Nat := c.toNat - 48

def natOfDigits (s : Str) : Nat := s.foldl (fun a c => 10 * a + digCharVal c) 0

def allDigits (s : Str) : Bool := s.all Char.isDigit

/-- Strict `YYYY-MM-DD` parse (the inferred-ISO-format path of `to_datetime`). -/
def parseISO : Str → Option Date
  | [y1, y2, y3, y4, s1, m1, m2, s2, d1, d2] =>
    if s1 == '-' && s2 == '-' && allDigits [y1, y2, y3, y4, m1, m2, d1, d2] then
      mkValidDate (natOfDigits [y1, y2, y3, y4]) (natOfDigits [m1, m2]) (natOfDigits [d1, d2])
    else none
  | _ => none

/-- Split `a/b/yyyy` into its three numeric fields. -/
def slashSplit (s : Str) : Option (Nat × Nat × Nat) :=
  match splitOnC '/' s with
  | [p1, p2, p3] =>
    if p1 ≠ [] && p2 ≠ [] && allDigits p1 && allDigits p2 && allDigits p3 && p3.length == 4 then
      some (natOfDigits p1, natOfDigits p2, natOfDigits p3)
    else none
  | _ => none

inductive DFormat
  | iso
  | mdy
  | dmy
  deriving DecidableEq

def parseWithFormat : DFormat → Str → Option Date
  | .iso, s => parseISO s
  | .mdy, s => (slashSplit s).bind (fun p => mkValidDate p.2.2 p.1 p.2.1)
  | .dmy, s => (slashSplit s).bind (fun p => mkValidDate p.2.2 p.2.1 p.1)

/-- Per-element dateutil-style parse used when no column format could be guessed. -/
def parseFlex (s : Str) : Option Date :=
  match parseISO s with
  | some dt => some dt
  | none =>
    match slashSplit s with
    | some p => if 12 < p.1 then mkValidDate p.2.2 p.2.1 p.1 else mkValidDate p.2.2 p.1 p.2.1
    | none => none

/-- Format inference from the first non-null element (pandas `guess_datetime_format`). -/
def guessFormat (s : Str) : Option DFormat :=
  if (parseISO s).isSome then some .iso
  else
    match slashSplit s with
    | some p => some (if 12 < p.1 then .dmy else .mdy)
    | none => none

def firstSome : List (Option α) → Option α
  | [] => none
  | some a :: _ => some a
  | none :: rest => firstSome rest

/-- Model of line 103 of `app.py`:
`pd.to_datetime(df["Date"], errors="coerce", utc=True).dt.tz_localize(None)`.
A single parsing pass: the format is inferred from the first non-null
element and applied to every element, failures coercing to null. -/
def to_datetime (cells : List (Option Str)) : List (Option Date) :=
  match firstSome cells with
  | none => cells.map (fun _ => none)
  | some c0 =>
    match guessFormat c0 with
    | some f => cells.map (fun c => c.bind (parseWithFormat f))
    | none => cells.map (fun c => c.bind parseFlex)

/-- Model of line 108 of `app.py`: `str.replace(r"[^\d\.\-]", "", regex=True)`.
Note the character class keeps every `-`, wherever it occurs. -/
def cleanNumStr (s : Str) : Str :=
  s.filter (fun c => c.isDigit || c == '.' || c == '-')

/-- Model of `pd.to_numeric(s, errors="coerce")` on a single cleaned cell:
an optional leading minus sign, then digits with at most one decimal point. -/
def parseNumber (s : Str) : Option ℚ :=
  let neg := s.head? == some '-'
  let t := if neg then s.tail else s
  if t.any Char.isDigit && t.all (fun c => c.isDigit || c == '.') && t.count '.' ≤ 1 then
    let ip := t.takeWhile (fun c => c ≠ '.')
    let fp := (t.dropWhile (fun c => c ≠ '.')).tail
    let v : ℚ := mkRat (natOfDigits (ip ++ fp)) (10 ^ fp.length)
    some (if neg then -v else v)
  else none

/-- Fuel-driven decimal rendering of a natural number (most significant digit first). -/
def natStrAux : Nat → Nat → Str
  | 0, _ => []
  | fuel + 1, n =>
    if n < 10 then [Nat.digitChar n]
    else natStrAux fuel (n / 10) ++ [Nat.digitChar (n % 10)]

def natStr (n : Nat) : Str := natStrAux (n + 1) n

/-- The untyped table produced by `pd.read_csv`: named columns, rows of
optional text cells (`none` = NaN). -/
structure RawFrame where
  header : List Str
  rows : List (List (Option Str))
  deriving DecidableEq

/-- pandas names an empty header field `Unnamed: i` (by column position). -/
def unnamedFix (hs : List Str) : List Str :=
  hs.enum.map (fun p => if p.2 = [] then strL ("Unnamed: ") ++ natStr p.1 else p.2)

def mangleAux : List Str → List Str → List Str
  | _, [] => []
  | seen, c :: cs =>
    let k := seen.count c
    (if k = 0 then c else c ++ '.' :: natStr k) :: mangleAux (c :: seen) cs

/-- pandas renames the k-th duplicate occurrence of a header name to `name.k`. -/
def mangleDup (hs : List Str) : List Str := mangleAux [] hs

/-- An empty CSV field is read as a missing value. -/
def cellOf (s : Str) : Option Str := if s = [] then none else some s

/-- Short rows are padded with missing values up to the header width. -/
def padRow (n : Nat) (cs : List Str) : List (Option Str) :=
  cs.map cellOf ++ List.replicate (n - cs.length) none

/-- Parse the data rows; a row with more fields than the header raises. -/
def parseRows (sep : Char) (n : Nat) : List Str → Except Unit (List (List (Option Str)))
  | [] => .ok []
  | r :: rs =>
    let cs := splitOnC sep r
    if n < cs.length then .error ()
    else
      match parseRows sep n rs with
      | .error e => .error e
      | .ok rest => .ok (padRow n cs :: rest)

/-- Model of `pd.read_csv(io.StringIO(text), sep=sep)`:
blank lines are skipped, the first remaining line is the header
(`EmptyDataError` when there is none). -/
def read_csv_sep (sep : Char) (text : Str) : Except Unit RawFrame :=
  match (splitLines text).filter (fun l => !l.isEmpty) with
  | [] => .error ()
  | h :: rs =>
    let hdr := mangleDup (unnamedFix (splitOnC sep h))
    match parseRows sep hdr.length rs with
    | .error e => .error e
    | .ok rows => .ok ⟨hdr, rows⟩

/-- Delimiter sniffing for `sep=None, engine="python"`. -/
def sniffSep (text : Str) : Option Char :=
  match (splitLines text).filter (fun l => !l.isEmpty) with
  | [] => none
  | h :: _ => [',', '\t', ';'].find? (fun c => h.contains c)

/-- Model of lines 73-76 of `app.py`: try the sniffing reader, and on any
failure fall back to the default (comma) reader, whose failure propagates. -/
def read_csv_try (text : Str) : Except Unit RawFrame :=
  match sniffSep text with
  | some sep =>
    match read_csv_sep sep text with
    | .ok f => .ok f
    | .error _ => read_csv_sep ',' text
  | none => read_csv_sep ',' text

def header_keys : List Str :=
  [strL ("tempo"), strL ("giorno"), strL ("settimana"), strL ("week"),
   strL ("date"), strL ("month"), strL ("mese")]

def hasDelim (l : Str) : Bool := l.contains ',' || l.contains ';' || l.contains '\t'

/-- Line 56 of `app.py`: a delimiter plus a (case-insensitive) time keyword. -/
def isHeaderLine (l : Str) : Bool :=
  hasDelim l && header_keys.any (fun k => containsSub k (lowerL l))

/-- Does the string start with the pattern `\d{4}-\d{2}-\d{2}`? -/
def isDateAt : Str → Bool
  | n1 :: n2 :: n3 :: n4 :: s1 :: n5 :: n6 :: s2 :: n7 :: n8 :: _ =>
    allDigits [n1, n2, n3, n4, n5, n6, n7, n8] && s1 == '-' && s2 == '-'
  | _ => false

/-- `re.search(r"\d{4}-\d{2}-\d{2}", l)` succeeds somewhere in the line. -/
def hasDatePattern (l : Str) : Bool := l.tails.any isDateAt

def isDateLine (l : Str) : Bool := hasDatePattern l && hasDelim l

/-- Lines 49-68 of `app.py`: find the header among the first 100 lines by
keyword, else one line above the first ISO-date-bearing delimited line,
else line 0. -/
def findHeaderIdx (lines : List Str) : Nat :=
  match (lines.take 100).findIdx? isHeaderLine with
  | some i => i
  | none =>
    match (lines.take 100).findIdx? isDateLine with
    | some i => i - 1
    | none => 0

/-- Lines 86-94 of `app.py`: strip a `": suffix"` annotation and surrounding
whitespace, falling back to the trimmed original when that leaves nothing. -/
def cleanName (c : Str) : Str :=
  let base := trimL (c.takeWhile (fun ch => ch ≠ ':'))
  if base = [] then trimL c else base

/-- Line 98 of `app.py`: `c.strip().lower() == "ispartial"`. -/
def isMarkerCol (c : Str) : Bool := lowerL (trimL c) == strL ("ispartial")

/-- `pd.api.types.is_numeric_dtype` applied to a column that was produced by
`pd.to_numeric(_, errors="coerce")`.  Such a column always has dtype
int64/float64 (all-NaN columns are float64), so the test is always true. -/
def is_numeric_dtype (_col : List (Option ℚ)) : Bool := true

/-- The parser's output: the `NormalizedTable` of the spec.  `names` are the
series names (the canonical time column `Date` is implicit), each row is a
time value (always present after the dropna step) plus the series cells. -/
structure TTable where
  names : List Str
  rows : List (Option Date × List (Option ℚ))
  deriving DecidableEq

/-- Keep exactly the entries of `l` whose mask bit is true. -/
def applyMask : List Bool → List α → List α
  | [], _ => []
  | _, [] => []
  | b :: bs, x :: xs => if b then x :: applyMask bs xs else applyMask bs xs

def dateKey (dt : Date) : Nat := dt.y * 10000 + dt.m * 100 + dt.d

def rowKey (r : Option Date × List (Option ℚ)) : Nat := (r.1.map dateKey).getD 0

def insertSorted (r : Option Date × List (Option ℚ)) :
    List (Option Date × List (Option ℚ)) → List (Option Date × List (Option ℚ))
  | [] => [r]
  | s :: ss => if rowKey r ≤ rowKey s then r :: s :: ss else s :: insertSorted r ss

/-- Stable ascending sort (model of `df.sort_values("Date")`). -/
def sortRows (l : List (Option Date × List (Option ℚ))) :
    List (Option Date × List (Option ℚ)) :=
  l.foldr insertSorted []

/-- Line 108-109 of `app.py` on one cell: `astype(str)` renders a missing
value as `"nan"`, then the non-numeric characters are stripped and the
remainder is coerced to a number. -/
def coerceCell (cell : Option Str) : Option ℚ :=
  parseNumber (cleanNumStr (cell.getD (strL ("nan"))))

/-- Lines 78-116 of `app.py`, parameterised by the time-column parser so the
code's single-pass `to_datetime` can be compared against spec-modelled
variants: rename the first column to `Date`, clean the series names, drop
the is-partial marker columns, parse and dropna the time column, coerce
the series cells to numbers, keep the numeric-dtype columns, sort by time. -/
def normalizeWith (timeParse : List (Option Str) → List (Option Date))
    (raw : RawFrame) : TTable :=
  match raw.header with
  | [] => ⟨[], []⟩
  | _h0 :: hs =>
    let cleaned := hs.map cleanName
    let allNames := strL ("Date") :: cleaned
    let mask := allNames.map (fun c => !isMarkerCol c)
    let names1 := applyMask mask allNames
    let rows1 := raw.rows.map (fun r => applyMask mask r)
    let dates := timeParse (rows1.map (fun r => r.headD none))
    let rows2 := (dates.zip rows1).filter (fun p => p.1.isSome)
    let rows3 := rows2.map (fun p => (p.1, (p.2.drop 1).map coerceCell))
    let snames := names1.drop 1
    let keep := (List.range snames.length).map
      (fun j => is_numeric_dtype (rows3.map (fun r => r.2.getD j none)))
    let names2 := applyMask keep snames
    if names2.isEmpty then ⟨[], []⟩
    else ⟨names2, sortRows (rows3.map (fun p => (p.1, applyMask keep p.2)))⟩

def normalizeFrame (raw : RawFrame) : TTable := normalizeWith to_datetime raw

/-- Some element of the list occurs twice. -/
def hasDup : List Str → Bool
  | [] => false
  | x :: xs => xs.contains x || hasDup xs

/-- The label collisions on which the pandas pipeline raises instead of
returning a table.  After the rename of the first column to `Date`
(lines 82-83 of `app.py`) and the name cleaning (lines 86-95), the
surviving series labels are the cleaned tail names minus the is-partial
markers.  When one of them equals `Date`, `df["Date"]` on line 103
selects a two-column DataFrame and `pd.to_datetime` raises `ValueError`
(`errors="coerce"` does not apply to assembly); when two of them
coincide, `df[c].astype(str).str` on line 108 selects a DataFrame and
raises `AttributeError`.  Either exception propagates to the caller. -/
def dupLabels (header : List Str) : Bool :=
  match header with
  | [] => false
  | _h0 :: hs =>
    let snames := (hs.map cleanName).filter (fun c => !isMarkerCol c)
    snames.contains (strL ("Date")) || hasDup snames

/-- Lines 47-70 of `app.py`: split into lines, locate the header, and re-join
the text from the header line onward. -/
def sliceOf (text : Str) : Str :=
  joinSep '\n' ((splitLines text).drop (findHeaderIdx (splitLines text)))

/-- `load_trends_csv` of `app.py` on decoded text, parameterised by the
time-column parser (the code uses `to_datetime`): read the sliced CSV,
raise on a label collision (see `dupLabels`), otherwise normalise. -/
def loadWith (timeParse : List (Option Str) → List (Option Date)) (text : Str) :
    Except Unit TTable :=
  (read_csv_try (sliceOf text)).bind (fun raw =>
    if dupLabels raw.header then .error () else .ok (normalizeWith timeParse raw))

/-- `load_trends_csv` of `app.py` on decoded text. -/
def load_trends_csv (text : Str) : Except Unit TTable := loadWith to_datetime text

/-- An already-open readable stream (`file_like_or_path.read()` input). -/
structure ByteStream where
  content : Str
  pos : Nat
  seekable : Bool
  deriving DecidableEq

/-- `.read()`: consume everything from the current position. -/
def streamReadAll (b : ByteStream) : Str × ByteStream :=
  (b.content.drop b.pos, { b with pos := b.content.length })

/-- Lines 36-39 of `app.py`: `try: f.seek(0) except: pass`. -/
def streamSeekStart (b : ByteStream) : ByteStream :=
  if b.seekable then { b with pos := 0 } else b

inductive LoadErr
  | ioError
  | parseError
  deriving DecidableEq

/-- `load_trends_csv` called with an already-open stream: read it all,
best-effort rewind, then parse; parse failures propagate to the caller. -/
def load_trends_from_stream (b : ByteStream) : Except LoadErr TTable × ByteStream :=
  let p := streamReadAll b
  ((load_trends_csv p.1).mapError (fun _ => LoadErr.parseError), streamSeekStart p.2)

/-- `load_trends_csv` called with a path: `open(path, "rb")` failure is an
I/O error; anything the parser raises also propagates, as a parse error. -/
def load_trends_from_path (fs : String → Option Str) (path : String) :
    Except LoadErr TTable :=
  match fs path with
  | none => .error .ioError
  | some bytes => (load_trends_csv bytes).mapError (fun _ => LoadErr.parseError)

/-- Zero-padded fixed-width decimal rendering. -/
def padDigits (w n : Nat) : Str :=
  List.replicate (w - (natStr n).length) '0' ++ natStr n

/-- `to_csv` rendering of a timestamp that carries a pure date. -/
def serializeDate (dt : Date) : Str :=
  padDigits 4 dt.y ++ '-' :: padDigits 2 dt.m ++ '-' :: padDigits 2 dt.d

/-- `to_csv` rendering of a float cell: sign, integer part, decimal point,
fraction (NaN renders as the empty field, handled in `serializeCell`). -/
def serializeQ (q : ℚ) : Str :=
  let k := q.den
  let m := q.num.natAbs * (10 ^ k / q.den)
  let ds := padDigits (k + 1) m
  (if q.num < 0 then ['-'] else []) ++ ds.take (ds.length - k) ++ '.' :: ds.drop (ds.length - k)

def serializeCell : Option ℚ → Str
  | none => []
  | some q => serializeQ q

/-- `df.to_csv(index=False)` on the parser's output table. -/
def to_csv (t : TTable) : Str :=
  joinSep '\n'
    (joinSep ',' (strL ("Date") :: t.names) ::
      t.rows.map (fun r =>
        joinSep ',' ((r.1.map serializeDate).getD [] :: r.2.map serializeCell)))

/-- Modelled from the spec (step 5 of the algorithm), not present in the
code: "Attempt a locale-neutral (month-before-day) parse first; if more
than half of the values fail to parse, retry with day-before-month
ordering."  Used only to exhibit the divergence from the single-pass
`to_datetime` the code performs. -/
def to_datetime_retry (cells : List (Option Str)) : List (Option Date) :=
  let pM := fun s => match parseISO s with | some dt => some dt | none => parseWithFormat .mdy s
  let pD := fun s => match parseISO s with | some dt => some dt | none => parseWithFormat .dmy s
  let vals := cells.filterMap id
  let failures := vals.countP (fun s => (pM s).isNone)
  if vals.length < 2 * failures then cells.map (fun c => c.bind pD)
  else cells.map (fun c => c.bind pM)

/-- Modelled from the spec (step 4 of the algorithm), not present in the
code: "If a cell in this column looks like a date range
(YYYY-MM-DD - YYYY-MM-DD or similar), extract only the first date token
before parsing." -/
def firstDateToken (s : Str) : Str := s.takeWhile (fun c => c ≠ ' ')

/-- Time parsing as the spec describes it for range cells: first token
extraction, then the usual parse. -/
def to_datetime_rangefix (cells : List (Option Str)) : List (Option Date) :=
  to_datetime (cells.map (fun c => c.map firstDateToken))

/-- Modelled from the spec (step 7 of the algorithm): strip every character
that is not a digit, a decimal point, or a LEADING minus sign.  The code's
regex `[^\d\.\-]` instead keeps every minus sign wherever it occurs. -/
def cleanNumStrSpec : Str → Str
  | '-' :: rest => '-' :: rest.filter (fun c => c.isDigit || c == '.')
  | s => s.filter (fun c => c.isDigit || c == '.')

/-- Sufficient condition for the CSV reader not to raise on the sliced
text: a non-blank line exists and, under the fallback comma split, no
later line is wider than the header line. -/
def widthsOK (text : Str) : Bool :=
  match (splitLines (sliceOf text)).filter (fun l => !l.isEmpty) with
  | [] => false
  | h :: rs => rs.all (fun r => (splitOnC ',' r).length ≤ (splitOnC ',' h).length)

/-- A well-formed input: the reader finds a non-blank header line and no
over-wide data row (`widthsOK`), it succeeds, and the labels it produces
survive the rename and the name cleaning without collisions, so no
label-based step of lines 82-116 of `app.py` raises either. -/
def goodContent (text : Str) : Bool :=
  widthsOK text &&
    (match read_csv_try (sliceOf text) with
      | .error _ => false
      | .ok raw => !dupLabels raw.header)

/-- Validity predicate satisfied by every date the parsers produce. -/
def dateOK (dt : Date) : Prop :=
  dt.y < 10000 ∧ 1 ≤ dt.m ∧ dt.m ≤ 12 ∧ 1 ≤ dt.d ∧ dt.d ≤ daysInMonth dt.y dt.m

/-- Every value `parseNumber` produces is a finite decimal: its denominator
divides a power of ten (10 to the denominator itself always suffices). -/
def decOK (q : ℚ) : Prop := (q.den : Nat) ∣ 10 ^ q.den

/-- Concrete inputs used by the witnesses and counterexamples. -/
def exEmpty : Str := []

def fsOne : String → Option Str :=
  fun p => if p = "data.csv" then some exEmpty else none

def exGood : Str := strL ("Week,A\n2024-01-01,5")

def exMixed : Str := strL ("Week,A,B\n2024-01-01,5,x")

def exRetry : Str := strL ("Week,A\n2024-01-01,5\n13/01/2024,6\n14/01/2024,7")

def exMinus : Str := strL ("Week,A\n2024-01-01,5-6")

def exRange : Str := strL ("Week,A\n2024-01-01 - 2024-01-07,5\n2024-01-08,6")

def exDateName : Str := strL ("Week,Date: (x)\n2024-01-01,5")

def exBanner : Str :=
  strL ("Categoria: Tutte le categorie\n\nWeek,AI: (Italy),isPartial\n2024-01-01,45,False\n2024-01-08,,True")

def exPartial : Str := strL ("Week,A,isPartial\n2024-01-01,5,true")

def exUnsorted : Str := strL ("Week,A\n2024-01-08,6\n2024-01-01,5")

def exDupDate : Str := strL ("Week,Date\n2024-01-01,5")

def exDupName : Str := strL ("Week,A: x,A: y\n2024-01-01,1,2")

def exEmptyName : Str := strL ("Week,  \n2024-01-01,5")

/-- One data cell embedded in a fixed one-series CSV (used to quantify over
arbitrary cell contents end-to-end). -/
def mkCellInput (s : Str) : Str := strL ("Week,A\n2024-01-01,") ++ s

/-- The time column handed to `to_datetime` inside `normalizeWith` (the first
cell of every row after the marker columns are dropped). -/
def timeColumnOf (raw : RawFrame) : List (Option Str) :=
  (raw.rows.map (fun r =>
    applyMask ((strL ("Date") :: raw.header.tail.map cleanName).map
      (fun c => !isMarkerCol c)) r)).map (fun r => r.headD none)

instance {ε α : Type} [DecidableEq ε] [DecidableEq α] : DecidableEq (Except ε α) := fun x y =>
  match x, y with
  | .ok a, .ok b => if h : a = b then .isTrue (by rw [h]) else .isFalse (by simp [h])
  | .error a, .error b => if h : a = b then .isTrue (by rw [h]) else .isFalse (by simp [h])
  | .ok _, .error _ => .isFalse (by simp)
  | .error _, .ok _ => .isFalse (by simp)

/-! ## Utility lemmas: splitting and joining -/

theorem splitOnC_ne_nil (sep : Char) (l : Str) : splitOnC sep l ≠ [] := by
  cases l with
  | nil => simp [splitOnC]
  | cons c cs =>
    simp only [splitOnC]
    split
    · simp
    · split <;> simp

theorem splitOnC_cons_sep (sep : Char) (l : Str) :
    splitOnC sep (sep :: l) = [] :: splitOnC sep l := by
  simp only [splitOnC]
  rcases h : splitOnC sep l with _ | ⟨t, ts⟩
  · exact absurd h (splitOnC_ne_nil sep l)
  · simp

theorem splitOnC_no_sep (sep : Char) (l : Str) (h : ∀ c ∈ l, c ≠ sep) :
    splitOnC sep l = [l] := by
  induction l with
  | nil => rfl
  | cons c cs ih =>
    have hc : c ≠ sep := h c (by simp)
    have ih2 := ih (fun x hx => h x (by simp [hx]))
    simp only [splitOnC, ih2]
    simp [hc]

theorem splitOnC_append (sep : Char) (l1 l2 : Str) (h : ∀ c ∈ l1, c ≠ sep) :
    splitOnC sep (l1 ++ sep :: l2) = l1 :: splitOnC sep l2 := by
  induction l1 with
  | nil => simpa using splitOnC_cons_sep sep l2
  | cons c cs ih =>
    have hc : c ≠ sep := h c (by simp)
    have ih2 := ih (fun x hx => h x (by simp [hx]))
    rw [List.cons_append]
    simp only [splitOnC]
    rw [ih2]
    simp [hc]

theorem joinSep_cons (c : Char) (l : Str) (ls : List Str) (h : ls ≠ []) :
    joinSep c (l :: ls) = l ++ c :: joinSep c ls := by
  cases ls with
  | nil => exact absurd rfl h
  | cons x xs => rfl

theorem splitOnC_joinSep (sep : Char) (parts : List Str) (hne : parts ≠ [])
    (h : ∀ p ∈ parts, ∀ c ∈ p, c ≠ sep) :
    splitOnC sep (joinSep sep parts) = parts := by
  induction parts with
  | nil => exact absurd rfl hne
  | cons p ps ih =>
    cases ps with
    | nil => exact splitOnC_no_sep sep p (h p (by simp))
    | cons q qs =>
      rw [joinSep_cons sep p (q :: qs) (by simp)]
      rw [splitOnC_append sep p _ (h p (by simp))]
      rw [ih (by simp) (fun x hx => h x (List.mem_cons_of_mem _ hx))]

theorem joinSep_ne_nil (c : Char) (p : Str) (ps : List Str) (hp : p ≠ []) :
    joinSep c (p :: ps) ≠ [] := by
  cases ps with
  | nil => simpa [joinSep]
  | cons q qs => simp [joinSep_cons, hp]

theorem getLast?_ne_of_forall (l : Str) (a : Char) (h : ∀ c ∈ l, c ≠ a) :
    l.getLast? ≠ some a := by
  induction l with
  | nil => simp
  | cons c cs ih =>
    cases cs with
    | nil =>
      have := h c (by simp)
      simp [List.getLast?]
      exact this
    | cons x xs =>
      rw [List.getLast?_cons_cons]
      exact ih (fun y hy => h y (List.mem_cons_of_mem _ hy))

theorem getLast?_joinSep_ne (c : Char) (parts : List Str) (a : Char)
    (h1 : ∀ p ∈ parts, p ≠ []) (h2 : ∀ p ∈ parts, ∀ x ∈ p, x ≠ a) :
    (joinSep c parts).getLast? ≠ some a := by
  induction parts with
  | nil => simp [joinSep]
  | cons p ps ih =>
    cases ps with
    | nil =>
      exact getLast?_ne_of_forall p a (h2 p (by simp))
    | cons q qs =>
      rw [joinSep_cons c p (q :: qs) (by simp)]
      have hqs := ih (fun x hx => h1 x (List.mem_cons_of_mem _ hx))
        (fun x hx => h2 x (List.mem_cons_of_mem _ hx))
      have hne : joinSep c (q :: qs) ≠ [] :=
        joinSep_ne_nil c q qs (h1 q (by simp))
      rcases hJ : joinSep c (q :: qs) with _ | ⟨x, xs⟩
      · exact absurd hJ hne
      rw [hJ] at hqs
      rw [List.getLast?_append, List.getLast?_cons_cons]
      intro hcon
      apply hqs
      rcases hx : (x :: xs).getLast? with _ | y
      · simp at hx
      · rw [hx] at hcon
        simp [Option.or] at hcon
        rw [hcon]

theorem splitLines_joinSep (parts : List Str) (hne : parts ≠ [])
    (h1 : ∀ p ∈ parts, p ≠ []) (h2 : ∀ p ∈ parts, ∀ c ∈ p, c ≠ '\n') :
    splitLines (joinSep '\n' parts) = parts := by
  rcases parts with _ | ⟨p, ps⟩
  · exact absurd rfl hne
  have hnn : joinSep '\n' (p :: ps) ≠ [] := joinSep_ne_nil '\n' p ps (h1 p (by simp))
  have hlast : (joinSep '\n' (p :: ps)).getLast? ≠ some '\n' :=
    getLast?_joinSep_ne '\n' (p :: ps) '\n' h1 h2
  rw [splitLines, if_neg hnn, if_neg hlast]
  exact splitOnC_joinSep '\n' (p :: ps) hne h2

/-! ## Utility lemmas: masks, filtering, sorting -/

theorem applyMask_map_filter (p : α → Bool) (l : List α) :
    applyMask (l.map p) l = l.filter p := by
  induction l with
  | nil => rfl
  | cons x xs ih =>
    simp only [List.map_cons, applyMask, List.filter_cons]
    by_cases h : p x <;> simp [h, ih]

theorem applyMask_all_true (bs : List Bool) (l : List α)
    (hb : ∀ b ∈ bs, b = true) (hl : l.length ≤ bs.length) : applyMask bs l = l := by
  induction bs generalizing l with
  | nil =>
    cases l with
    | nil => rfl
    | cons x xs => simp at hl
  | cons b bs ih =>
    cases l with
    | nil => rfl
    | cons x xs =>
      have hbt : b = true := hb b (by simp)
      simp only [applyMask, hbt, if_true]
      rw [ih xs (fun y hy => hb y (List.mem_cons_of_mem _ hy)) (by simpa using hl)]

theorem applyMask_length (bs : List Bool) (l : List α) (h : l.length = bs.length) :
    (applyMask bs l).length = bs.countP id := by
  induction bs generalizing l with
  | nil =>
    cases l with
    | nil => simp [applyMask]
    | cons x xs => simp at h
  | cons b bs ih =>
    cases l with
    | nil => simp at h
    | cons x xs =>
      have h2 : xs.length = bs.length := by simpa using h
      by_cases hb : b <;> simp [applyMask, hb, List.countP_cons, ih xs h2]

theorem mem_of_mem_applyMask (bs : List Bool) (l : List α) (x : α)
    (h : x ∈ applyMask bs l) : x ∈ l := by
  induction bs generalizing l with
  | nil => simp [applyMask] at h
  | cons b bs ih =>
    cases l with
    | nil => simp [applyMask] at h
    | cons y ys =>
      by_cases hb : b
      · simp only [applyMask, hb, if_true] at h
        rcases List.mem_cons.mp h with h1 | h2
        · exact h1 ▸ List.mem_cons_self _ _
        · exact List.mem_cons_of_mem _ (ih ys h2)
      · simp only [applyMask, hb, if_false] at h
        exact List.mem_cons_of_mem _ (ih ys h)

theorem mem_insertSorted (r s : Option Date × List (Option ℚ))
    (l : List (Option Date × List (Option ℚ))) :
    s ∈ insertSorted r l ↔ s = r ∨ s ∈ l := by
  induction l with
  | nil => simp [insertSorted]
  | cons x xs ih =>
    simp only [insertSorted]
    by_cases h : rowKey r ≤ rowKey x
    · rw [if_pos h]
      simp only [List.mem_cons]
    · rw [if_neg h]
      simp only [List.mem_cons, ih]
      tauto

theorem mem_sortRows (l : List (Option Date × List (Option ℚ))) (r) :
    r ∈ sortRows l ↔ r ∈ l := by
  induction l with
  | nil => simp [sortRows]
  | cons x xs ih =>
    show r ∈ insertSorted x (sortRows xs) ↔ _
    rw [mem_insertSorted]
    simp only [List.mem_cons, ih]

theorem length_insertSorted (r) (l : List (Option Date × List (Option ℚ))) :
    (insertSorted r l).length = l.length + 1 := by
  induction l with
  | nil => rfl
  | cons x xs ih =>
    simp only [insertSorted]
    by_cases h : rowKey r ≤ rowKey x
    · rw [if_pos h]
      simp
    · rw [if_neg h]
      simp [ih]

theorem length_sortRows (l : List (Option Date × List (Option ℚ))) :
    (sortRows l).length = l.length := by
  induction l with
  | nil => rfl
  | cons x xs ih =>
    show (insertSorted x (sortRows xs)).length = _
    rw [length_insertSorted, ih]
    simp

theorem pairwise_insertSorted (r) (l : List (Option Date × List (Option ℚ)))
    (h : l.Pairwise (fun a b => rowKey a ≤ rowKey b)) :
    (insertSorted r l).Pairwise (fun a b => rowKey a ≤ rowKey b) := by
  induction l with
  | nil => simp [insertSorted]
  | cons x xs ih =>
    rcases List.pairwise_cons.mp h with ⟨hx, hxs⟩
    simp only [insertSorted]
    by_cases hle : rowKey r ≤ rowKey x
    · rw [if_pos hle]
      refine List.pairwise_cons.mpr ⟨?_, h⟩
      intro b hb
      rcases List.mem_cons.mp hb with rfl | hb2
      · exact hle
      · exact le_trans hle (hx b hb2)
    · rw [if_neg hle]
      refine List.pairwise_cons.mpr ⟨?_, ih hxs⟩
      intro b hb
      rcases (mem_insertSorted r b xs).mp hb with rfl | hb2
      · exact le_of_not_le hle
      · exact hx b hb2

theorem pairwise_sortRows (l : List (Option Date × List (Option ℚ))) :
    (sortRows l).Pairwise (fun a b => rowKey a ≤ rowKey b) := by
  induction l with
  | nil => simp [sortRows]
  | cons x xs ih => exact pairwise_insertSorted x _ ih

theorem sortRows_of_pairwise (l : List (Option Date × List (Option ℚ)))
    (h : l.Pairwise (fun a b => rowKey a ≤ rowKey b)) : sortRows l = l := by
  induction l with
  | nil => rfl
  | cons x xs ih =>
    rcases List.pairwise_cons.mp h with ⟨hx, hxs⟩
    show insertSorted x (sortRows xs) = x :: xs
    rw [ih hxs]
    cases xs with
    | nil => rfl
    | cons y ys =>
      simp only [insertSorted]
      rw [if_pos (hx y (by simp))]

theorem length_to_datetime (cells : List (Option Str)) :
    (to_datetime cells).length = cells.length := by
  unfold to_datetime
  split
  · simp
  · split <;> simp

theorem length_filter_zip_isSome (ds : List (Option Date)) (rs : List (List (Option Str)))
    (h : ds.length = rs.length) :
    ((ds.zip rs).filter (fun p => p.1.isSome)).length = ds.countP (fun d => d.isSome) := by
  induction ds generalizing rs with
  | nil => simp
  | cons d ds ih =>
    cases rs with
    | nil => simp at h
    | cons r rs =>
      have h2 : ds.length = rs.length := by simpa using h
      by_cases hd : d.isSome <;>
        simp [List.zip_cons_cons, List.filter_cons, hd, List.countP_cons, ih rs h2]

/-! ## Utility lemmas: decimal digits and fixed-width rendering -/

theorem isDigit_bounds (c : Char) (h : c.isDigit = true) :
    48 ≤ c.toNat ∧ c.toNat ≤ 57 := by
  simp [Char.isDigit] at h
  obtain ⟨h1, h2⟩ := h
  have h1' : (48 : UInt32).toNat ≤ c.val.toNat := h1
  have h2' : c.val.toNat ≤ (57 : UInt32).toNat := h2
  have e1 : (48 : UInt32).toNat = 48 := rfl
  have e2 : (57 : UInt32).toNat = 57 := rfl
  rw [e1] at h1'
  rw [e2] at h2'
  simp [Char.toNat]
  omega

theorem digCharVal_lt (c : Char) (h : c.isDigit = true) : digCharVal c < 10 := by
  obtain ⟨h1, h2⟩ := isDigit_bounds c h
  simp [digCharVal]
  omega

theorem digitChar_facts : ∀ n, n < 10 →
    (Nat.digitChar n).isDigit = true ∧ digCharVal (Nat.digitChar n) = n := by decide

theorem foldl_digits_acc (b : Str) (acc : Nat) :
    b.foldl (fun a c => 10 * a + digCharVal c) acc = acc * 10 ^ b.length + natOfDigits b := by
  induction b generalizing acc with
  | nil => simp [natOfDigits]
  | cons c cs ih =>
    simp only [List.foldl_cons, natOfDigits]
    rw [ih (10 * acc + digCharVal c), ih (10 * 0 + digCharVal c)]
    simp [List.length_cons, pow_succ]
    ring

theorem natOfDigits_cons (c : Char) (cs : Str) :
    natOfDigits (c :: cs) = digCharVal c * 10 ^ cs.length + natOfDigits cs := by
  show List.foldl _ (10 * 0 + digCharVal c) cs = _
  rw [foldl_digits_acc]
  simp

theorem natOfDigits_append (a b : Str) :
    natOfDigits (a ++ b) = natOfDigits a * 10 ^ b.length + natOfDigits b := by
  unfold natOfDigits
  rw [List.foldl_append]
  exact foldl_digits_acc b _

theorem natOfDigits_lt (s : Str) (h : allDigits s = true) : natOfDigits s < 10 ^ s.length := by
  induction s with
  | nil => simp [natOfDigits]
  | cons c cs ih =>
    simp only [allDigits, List.all_cons, Bool.and_eq_true] at h
    have h2 := ih h.2
    rw [natOfDigits_cons]
    have hv := digCharVal_lt c h.1
    have hX : (0:Nat) < 10 ^ cs.length := pow_pos (by norm_num) _
    have hlen : 10 ^ (c :: cs).length = 10 * 10 ^ cs.length := by
      simp [List.length_cons, pow_succ]
      ring
    rw [hlen]
    nlinarith

theorem natOfDigits_replicate_zero (k : Nat) (s : Str) :
    natOfDigits (List.replicate k '0' ++ s) = natOfDigits s := by
  induction k with
  | zero => simp
  | succ k ih =>
    simp only [List.replicate_succ, List.cons_append]
    rw [natOfDigits_cons]
    have h0 : digCharVal '0' = 0 := rfl
    simp [h0, ih]

theorem natStrAux_spec (fuel : Nat) : ∀ n, n < 10 ^ (fuel + 1) →
    natStrAux (fuel + 1) n ≠ [] ∧ allDigits (natStrAux (fuel + 1) n) = true ∧
      natOfDigits (natStrAux (fuel + 1) n) = n ∧ (natStrAux (fuel + 1) n).length ≤ fuel + 1 := by
  induction fuel with
  | zero =>
    intro n hn
    have h10 : n < 10 := by simpa using hn
    obtain ⟨hd, hv⟩ := digitChar_facts n h10
    simp only [natStrAux, if_pos h10]
    refine ⟨by simp, by simp [allDigits, hd], ?_, by simp⟩
    rw [natOfDigits_cons]
    simp [hv, natOfDigits]
  | succ fuel ih =>
    intro n hn
    by_cases h10 : n < 10
    · obtain ⟨hd, hv⟩ := digitChar_facts n h10
      simp only [natStrAux, if_pos h10]
      refine ⟨by simp, by simp [allDigits, hd], ?_, by simp⟩
      rw [natOfDigits_cons]
      simp [hv, natOfDigits]
    · have hstep : natStrAux (fuel + 1 + 1) n
          = natStrAux (fuel + 1) (n / 10) ++ [Nat.digitChar (n % 10)] := by
        rw [natStrAux, if_neg h10]
      rw [hstep]
      have hdiv : n / 10 < 10 ^ (fuel + 1) := by
        rw [Nat.div_lt_iff_lt_mul (by norm_num)]
        calc n < 10 ^ (fuel + 1 + 1) := hn
        _ = 10 ^ (fuel + 1) * 10 := by ring
      obtain ⟨ih1, ih2, ih3, ih4⟩ := ih (n / 10) hdiv
      have hmod : n % 10 < 10 := Nat.mod_lt _ (by norm_num)
      obtain ⟨hd, hv⟩ := digitChar_facts (n % 10) hmod
      refine ⟨by simp, ?_, ?_, ?_⟩
      · simp [allDigits, List.all_append] at ih2 ⊢
        exact ⟨ih2, hd⟩
      · rw [natOfDigits_append, ih3]
        have : natOfDigits [Nat.digitChar (n % 10)] = n % 10 := by
          rw [natOfDigits_cons]
          simp [hv, natOfDigits]
        rw [this]
        simp
        omega
      · simp only [List.length_append, List.length_cons, List.length_nil]
        omega

theorem natStr_spec (n : Nat) :
    natStr n ≠ [] ∧ allDigits (natStr n) = true ∧ natOfDigits (natStr n) = n := by
  have h2 : n < 2 ^ n := Nat.lt_two_pow n
  have h10 : (2:Nat) ^ n ≤ 10 ^ n := Nat.pow_le_pow_left (by norm_num) n
  have hup : (10:Nat) ^ n ≤ 10 ^ (n + 1) := Nat.pow_le_pow_right (by norm_num) (by omega)
  have h : n < 10 ^ (n + 1) := by omega
  obtain ⟨a, b, c, _⟩ := natStrAux_spec n n h
  exact ⟨a, b, c⟩

theorem natStrAux_irrel (n : Nat) : ∀ f1 f2 : Nat, n < 10 ^ f1 → n < 10 ^ f2 →
    1 ≤ f1 → 1 ≤ f2 → natStrAux f1 n = natStrAux f2 n := by
  induction n using Nat.strong_induction_on with
  | _ n ih =>
    intro f1 f2 h1 h2 hf1 hf2
    obtain ⟨g1, rfl⟩ : ∃ g, f1 = g + 1 := ⟨f1 - 1, by omega⟩
    obtain ⟨g2, rfl⟩ : ∃ g, f2 = g + 1 := ⟨f2 - 1, by omega⟩
    by_cases h10 : n < 10
    · simp [natStrAux, h10]
    · simp only [natStrAux, if_neg h10]
      have hg1 : 1 ≤ g1 := by
        rcases Nat.eq_zero_or_pos g1 with rfl | h
        · simp at h1
          omega
        · exact h
      have hg2 : 1 ≤ g2 := by
        rcases Nat.eq_zero_or_pos g2 with rfl | h
        · simp at h2
          omega
        · exact h
      have hb1 : n / 10 < 10 ^ g1 := by
        rw [Nat.div_lt_iff_lt_mul (by norm_num)]
        calc n < 10 ^ (g1 + 1) := h1
        _ = 10 ^ g1 * 10 := by ring
      have hb2 : n / 10 < 10 ^ g2 := by
        rw [Nat.div_lt_iff_lt_mul (by norm_num)]
        calc n < 10 ^ (g2 + 1) := h2
        _ = 10 ^ g2 * 10 := by ring
      have hlt : n / 10 < n := Nat.div_lt_self (by omega) (by norm_num)
      rw [ih (n / 10) hlt g1 g2 hb1 hb2 hg1 hg2]

theorem natStr_length_le (w n : Nat) (hw : 1 ≤ w) (h : n < 10 ^ w) :
    (natStr n).length ≤ w := by
  obtain ⟨g, rfl⟩ : ∃ g, w = g + 1 := ⟨w - 1, by omega⟩
  have h2 : n < 2 ^ n := Nat.lt_two_pow n
  have h10 : (2:Nat) ^ n ≤ 10 ^ n := Nat.pow_le_pow_left (by norm_num) n
  have hup : (10:Nat) ^ n ≤ 10 ^ (n + 1) := Nat.pow_le_pow_right (by norm_num) (by omega)
  have hn1 : n < 10 ^ (n + 1) := by omega
  rw [natStr, natStrAux_irrel n (n + 1) (g + 1) hn1 h (by omega) (by omega)]
  exact (natStrAux_spec g n h).2.2.2

theorem padDigits_allDigits (w n : Nat) : allDigits (padDigits w n) = true := by
  have h := (natStr_spec n).2.1
  simp only [padDigits, allDigits, List.all_append, Bool.and_eq_true]
  refine ⟨?_, h⟩
  simp only [List.all_eq_true]
  intro c hc
  rw [List.eq_of_mem_replicate hc]
  rfl

theorem padDigits_val (w n : Nat) : natOfDigits (padDigits w n) = n := by
  rw [padDigits, natOfDigits_replicate_zero]
  exact (natStr_spec n).2.2

theorem padDigits_length (w n : Nat) :
    (padDigits w n).length = max w (natStr n).length := by
  simp [padDigits]
  omega

theorem padDigits_length_exact (w n : Nat) (hw : 1 ≤ w) (h : n < 10 ^ w) :
    (padDigits w n).length = w := by
  rw [padDigits_length]
  have := natStr_length_le w n hw h
  omega

theorem padDigits_ne_nil (w n : Nat) : padDigits w n ≠ [] := by
  have h := (natStr_spec n).1
  rw [padDigits]
  intro hc
  exact h (List.append_eq_nil.mp hc).2

theorem length_eq_two_exists (l : Str) (h : l.length = 2) : ∃ a b, l = [a, b] := by
  rcases l with _ | ⟨a, t⟩
  · simp at h
  · have ht : t.length = 1 := by simpa using h
    obtain ⟨b, rfl⟩ := List.length_eq_one.mp ht
    exact ⟨a, b, rfl⟩

theorem length_eq_four_exists (l : Str) (h : l.length = 4) : ∃ a b c d, l = [a, b, c, d] := by
  rcases l with _ | ⟨a, t⟩
  · simp at h
  · have ht : t.length = 3 := by simpa using h
    obtain ⟨b, c, d, rfl⟩ := List.length_eq_three.mp ht
    exact ⟨a, b, c, d, rfl⟩

theorem daysInMonth_le_31 (y m : Nat) : daysInMonth y m ≤ 31 := by
  unfold daysInMonth
  split_ifs <;> norm_num

/-! ## Utility lemmas: numeric cells -/

theorem dvd_ten_pow_self (d k : Nat) (h : d ∣ 10 ^ k) : d ∣ 10 ^ d := by
  induction d using Nat.strong_induction_on with
  | _ d ih =>
    rcases Nat.eq_zero_or_pos d with rfl | hd0
    · rw [Nat.zero_dvd] at h
      have : (0:Nat) < 10 ^ k := pow_pos (by norm_num) k
      omega
    rcases eq_or_ne d 1 with rfl | hd1
    · exact one_dvd _
    have hp := Nat.minFac_prime hd1
    have hpd : d.minFac ∣ d := Nat.minFac_dvd d
    have hp10 : d.minFac ∣ 10 := hp.dvd_of_dvd_pow (hpd.trans h)
    have hp2 : 2 ≤ d.minFac := hp.two_le
    have hdp : d / d.minFac ∣ 10 ^ k := (Nat.div_dvd_of_dvd hpd).trans h
    have hlt : d / d.minFac < d := Nat.div_lt_self hd0 (by omega)
    have ih2 : d / d.minFac ∣ 10 ^ (d / d.minFac) := ih (d / d.minFac) hlt hdp
    have heq : d.minFac * (d / d.minFac) = d := Nat.mul_div_cancel' hpd
    have hmul : d.minFac * (d / d.minFac) ∣ 10 * 10 ^ (d / d.minFac) :=
      mul_dvd_mul hp10 ih2
    have hpow : (10:Nat) * 10 ^ (d / d.minFac) = 10 ^ (d / d.minFac + 1) := by ring
    have hle : d / d.minFac + 1 ≤ d := by omega
    calc d = d.minFac * (d / d.minFac) := heq.symm
    _ ∣ 10 ^ (d / d.minFac + 1) := by rw [← hpow]; exact hmul
    _ ∣ 10 ^ d := pow_dvd_pow 10 hle

theorem mkRat_den_dvd (n : ℤ) (d : ℕ) : (mkRat n d).den ∣ d := by
  have h : ((mkRat n d).den : ℤ) ∣ (d : ℤ) := by
    rw [Rat.mkRat_eq_divInt]
    exact Rat.den_dvd n d
  exact_mod_cast h

theorem parseNumber_decOK (s : Str) (q : ℚ) (h : parseNumber s = some q) : decOK q := by
  simp only [parseNumber] at h
  split_ifs at h
  all_goals first
    | exact Option.noConfusion h
    | (injection h with h2
       rw [← h2]
       unfold decOK
       first
         | (rw [Rat.neg_den]
            exact dvd_ten_pow_self _ _ (mkRat_den_dvd _ _))
         | exact dvd_ten_pow_self _ _ (mkRat_den_dvd _ _))

theorem takeWhile_append_stop {p : Char → Bool} (A B : Str) (a : Char)
    (hA : ∀ c ∈ A, p c = true) (ha : p a = false) :
    (A ++ a :: B).takeWhile p = A ∧ (A ++ a :: B).dropWhile p = a :: B := by
  induction A with
  | nil => simp [List.takeWhile, List.dropWhile, ha]
  | cons x xs ih =>
    have hx : p x = true := hA x (by simp)
    obtain ⟨ih1, ih2⟩ := ih (fun c hc => hA c (List.mem_cons_of_mem _ hc))
    constructor
    · simp only [List.cons_append, List.takeWhile_cons, hx, if_true, ih1]
    · simp only [List.cons_append, List.dropWhile_cons, hx, if_true, ih2]

theorem count_eq_zero_of_all_ne (l : Str) (a : Char) (h : ∀ c ∈ l, c ≠ a) :
    l.count a = 0 := by
  rw [List.count_eq_zero]
  intro hmem
  exact h a hmem rfl

theorem cleanNumStr_id (s : Str)
    (h : ∀ c ∈ s, c.isDigit = true ∨ c = '.' ∨ c = '-') : cleanNumStr s = s := by
  rw [cleanNumStr, List.filter_eq_self]
  intro c hc
  rcases h c hc with h1 | h1 | h1 <;> simp [h1]

theorem isDigit_ne_special (c : Char) (h : c.isDigit = true) :
    c ≠ '.' ∧ c ≠ '-' ∧ c ≠ ',' ∧ c ≠ '\n' ∧ c ≠ ';' ∧ c ≠ '\t' := by
  refine ⟨?_, ?_, ?_, ?_, ?_, ?_⟩ <;>
    (intro he; rw [he] at h; exact absurd h (by decide))

theorem parseNumber_decimal (A B : Str) (hA : allDigits A = true) (hB : allDigits B = true)
    (hAne : A ≠ []) :
    parseNumber (A ++ '.' :: B) = some (mkRat (natOfDigits (A ++ B)) (10 ^ B.length)) := by
  have hdigA : ∀ c ∈ A, c.isDigit = true := by
    simp only [allDigits, List.all_eq_true] at hA
    exact hA
  have hdigB : ∀ c ∈ B, c.isDigit = true := by
    simp only [allDigits, List.all_eq_true] at hB
    exact hB
  rcases A with _ | ⟨a0, A'⟩
  · exact absurd rfl hAne
  have ha0 := hdigA a0 (by simp)
  have hhead : ((a0 :: A' ++ '.' :: B).head? == some '-') = false := by
    simp only [List.cons_append, List.head?_cons, beq_eq_false_iff_ne, ne_eq,
      Option.some_inj]
    exact (isDigit_ne_special a0 ha0).2.1
  unfold parseNumber
  rw [hhead]
  simp only [Bool.false_eq_true, if_false]
  have hcond : ((a0 :: A' ++ '.' :: B).any Char.isDigit &&
      ((a0 :: A' ++ '.' :: B).all fun c => c.isDigit || c == '.') &&
      (a0 :: A' ++ '.' :: B).count '.' ≤ 1) = true := by
    simp only [Bool.and_eq_true, decide_eq_true_eq]
    refine ⟨⟨?_, ?_⟩, ?_⟩
    · simp only [List.any_eq_true]
      exact ⟨a0, by simp, ha0⟩
    · simp only [List.all_eq_true]
      intro c hc
      simp only [List.cons_append, List.mem_cons, List.mem_append] at hc
      rcases hc with rfl | hc | rfl | hc
      · simp [ha0]
      · simp [hdigA c (List.mem_cons_of_mem _ hc)]
      · simp
      · simp [hdigB c hc]
    · have hcnt : (a0 :: A' ++ '.' :: B).count '.' = 1 := by
        have e := List.count_append '.' (a0 :: A') ('.' :: B)
        have h1 := count_eq_zero_of_all_ne (a0 :: A') '.'
          (fun c hc => ((isDigit_ne_special c (hdigA c hc)).1))
        have h2 := count_eq_zero_of_all_ne B '.'
          (fun c hc => ((isDigit_ne_special c (hdigB c hc)).1))
        rw [e, h1, List.count_cons_self, h2]
      omega
  rw [hcond]
  simp only [if_true]
  obtain ⟨htw, hdw⟩ := takeWhile_append_stop (p := fun c => decide (c ≠ '.')) (a0 :: A') B '.'
    (fun c hc => by simp [(isDigit_ne_special c (hdigA c hc)).1])
    (by simp)
  rw [htw, hdw]
  simp

theorem parseNumber_neg_of_pos (s : Str) (v : ℚ)
    (hhead : (s.head? == some '-') = false) (h : parseNumber s = some v) :
    parseNumber ('-' :: s) = some (-v) := by
  simp only [parseNumber, hhead, Bool.false_eq_true, if_false] at h
  simp only [parseNumber, List.head?_cons, beq_self_eq_true, if_true, List.tail_cons]
  split_ifs at h ⊢ with hc
  all_goals first
    | exact Option.noConfusion h
    | rw [Option.some_inj.mp h]

theorem den_cast_ne_zero (q : ℚ) : ((q.den : ℚ)) ≠ 0 := by
  have := q.den_pos
  positivity

theorem mkRat_serial_val (q : ℚ) (h : decOK q) (hpos : 0 ≤ q.num) :
    mkRat ((q.num.natAbs * (10 ^ q.den / q.den) : ℕ) : ℤ) (10 ^ q.den) = q := by
  have hd0 : ((q.den : ℚ)) ≠ 0 := den_cast_ne_zero q
  have hX0 : ((10 : ℚ) ^ q.den) ≠ 0 := by positivity
  rw [Rat.mkRat_eq_div, Int.cast_natCast, Nat.cast_mul, Nat.cast_div h hd0]
  have habs : ((q.num.natAbs : ℕ) : ℚ) = (q.num : ℚ) := by
    have h1 : ((q.num.natAbs : ℕ) : ℚ) = ((q.num.natAbs : ℤ) : ℚ) :=
      (Int.cast_natCast _).symm
    rw [h1, Int.natAbs_of_nonneg hpos]
  rw [habs]
  have hX0' : (((10 ^ q.den : ℕ) : ℚ)) ≠ 0 := by positivity
  rw [show (q.num : ℚ) * (((10 ^ q.den : ℕ) : ℚ) / (q.den : ℚ)) / ((10 ^ q.den : ℕ) : ℚ)
      = (q.num : ℚ) / (q.den : ℚ) * (((10 ^ q.den : ℕ) : ℚ) / ((10 ^ q.den : ℕ) : ℚ)) by
    ring]
  rw [div_self hX0', mul_one, Rat.num_div_den]

theorem mkRat_serial_val_neg (q : ℚ) (h : decOK q) (hneg : q.num < 0) :
    mkRat ((q.num.natAbs * (10 ^ q.den / q.den) : ℕ) : ℤ) (10 ^ q.den) = -q := by
  have hd0 : ((q.den : ℚ)) ≠ 0 := den_cast_ne_zero q
  have hX0 : ((10 : ℚ) ^ q.den) ≠ 0 := by positivity
  have hden : (-q).den = q.den := Rat.neg_den q
  have hnum : (-q).num = -q.num := Rat.neg_num q
  have h2 : decOK (-q) := by
    unfold decOK at h ⊢
    rw [hden]
    exact h
  have hpos2 : 0 ≤ (-q).num := by omega
  have := mkRat_serial_val (-q) h2 hpos2
  rw [hden, hnum] at this
  rw [show (-q.num).natAbs = q.num.natAbs by omega] at this
  exact this


theorem parseNumber_clean_split (p : Prop) [Decidable p] (A B : Str)
    (hA : allDigits A = true) (hB : allDigits B = true) (hAne : A ≠ []) :
    parseNumber (cleanNumStr (((if p then ['-'] else []) ++ A) ++ '.' :: B)) =
      some (if p then -(mkRat (natOfDigits (A ++ B)) (10 ^ B.length))
            else mkRat (natOfDigits (A ++ B)) (10 ^ B.length)) := by
  have hdigA : ∀ c ∈ A, c.isDigit = true := by
    simp only [allDigits, List.all_eq_true] at hA
    exact hA
  have hdigB : ∀ c ∈ B, c.isDigit = true := by
    simp only [allDigits, List.all_eq_true] at hB
    exact hB
  have hhead : ((A ++ '.' :: B).head? == some '-') = false := by
    rcases A with _ | ⟨a0, A'⟩
    · exact absurd rfl hAne
    · simp only [List.cons_append, List.head?_cons, beq_eq_false_iff_ne, ne_eq,
        Option.some_inj]
      exact (isDigit_ne_special a0 (hdigA a0 (by simp))).2.1
  have hchars : ∀ c ∈ ((if p then ['-'] else []) ++ A) ++ '.' :: B,
      c.isDigit = true ∨ c = '.' ∨ c = '-' := by
    intro c hc
    rcases List.mem_append.mp hc with hc1 | hc2
    · rcases List.mem_append.mp hc1 with hc3 | hc3
      · split_ifs at hc3
        · simp at hc3
          right
          right
          exact hc3
        · simp at hc3
      · exact Or.inl (hdigA c hc3)
    · rcases List.mem_cons.mp hc2 with rfl | hc3
      · exact Or.inr (Or.inl rfl)
      · exact Or.inl (hdigB c hc3)
  rw [cleanNumStr_id _ hchars]
  by_cases hp : p
  · rw [if_pos hp, if_pos hp]
    rw [show (['-'] ++ A) ++ '.' :: B = '-' :: (A ++ '.' :: B) by simp]
    exact parseNumber_neg_of_pos _ _ hhead (parseNumber_decimal A B hA hB hAne)
  · rw [if_neg hp, if_neg hp]
    rw [show (([] : Str) ++ A) ++ '.' :: B = A ++ '.' :: B by simp]
    exact parseNumber_decimal A B hA hB hAne

theorem parseNumber_cleanNum_serializeQ (q : ℚ) (h : decOK q) :
    parseNumber (cleanNumStr (serializeQ q)) = some q := by
  have hk1 : 1 ≤ q.den := q.den_pos
  set ds := padDigits (q.den + 1) (q.num.natAbs * (10 ^ q.den / q.den)) with hds
  have hdig : allDigits ds = true := padDigits_allDigits _ _
  have hval : natOfDigits ds = q.num.natAbs * (10 ^ q.den / q.den) := padDigits_val _ _
  have hkL : q.den + 1 ≤ ds.length := by
    rw [hds, padDigits_length]
    omega
  have hdigall : ∀ c ∈ ds, c.isDigit = true := by
    simp only [allDigits, List.all_eq_true] at hdig
    exact hdig
  have hAne : ds.take (ds.length - q.den) ≠ [] := by
    intro hc
    have := congrArg List.length hc
    simp only [List.length_take, List.length_nil] at this
    omega
  have hAdig : allDigits (ds.take (ds.length - q.den)) = true := by
    simp only [allDigits, List.all_eq_true]
    exact fun c hc => hdigall c (List.mem_of_mem_take hc)
  have hBdig : allDigits (ds.drop (ds.length - q.den)) = true := by
    simp only [allDigits, List.all_eq_true]
    exact fun c hc => hdigall c (List.mem_of_mem_drop hc)
  have hBlen : (ds.drop (ds.length - q.den)).length = q.den := by
    rw [List.length_drop]
    omega
  have hser : serializeQ q = ((if q.num < 0 then ['-'] else [])
      ++ ds.take (ds.length - q.den)) ++ '.' :: ds.drop (ds.length - q.den) := rfl
  rw [hser]
  rw [parseNumber_clean_split (q.num < 0) _ _ hAdig hBdig hAne]
  rw [List.take_append_drop, hval, hBlen]
  by_cases hq : q.num < 0
  · rw [if_pos hq, mkRat_serial_val_neg q h hq, neg_neg]
  · rw [if_neg hq, mkRat_serial_val q h (by omega)]

/-! ## Utility lemmas: date parsing and rendering -/

theorem mkValidDate_dateOK (y m d : Nat) (dt : Date) (hy : y < 10000)
    (h : mkValidDate y m d = some dt) : dateOK dt := by
  unfold mkValidDate at h
  split_ifs at h with hc
  · obtain ⟨h1, h2, h3, h4⟩ := hc
    cases Option.some_inj.mp h
    exact ⟨hy, h1, h2, h3, h4⟩

theorem parseISO_dateOK (s : Str) (dt : Date) (h : parseISO s = some dt) : dateOK dt := by
  unfold parseISO at h
  split at h
  · rename_i y1 y2 y3 y4 s1 m1 m2 s2 d1 d2
    split_ifs at h with hc
    · simp only [Bool.and_eq_true, beq_iff_eq] at hc
      obtain ⟨⟨hs1, hs2⟩, hdig⟩ := hc
      have hy4 : allDigits [y1, y2, y3, y4] = true := by
        simp only [allDigits, List.all_cons, List.all_nil, Bool.and_eq_true] at hdig ⊢
        tauto
      have hbound : natOfDigits [y1, y2, y3, y4] < 10000 := by
        have := natOfDigits_lt [y1, y2, y3, y4] hy4
        simpa using this
      exact mkValidDate_dateOK _ _ _ _ hbound h
  · exact Option.noConfusion h

theorem slashSplit_y_lt (s : Str) (p : Nat × Nat × Nat) (h : slashSplit s = some p) :
    p.2.2 < 10000 := by
  unfold slashSplit at h
  split at h
  · rename_i p1 p2 p3 heq
    split_ifs at h with hc
    simp only [Bool.and_eq_true, beq_iff_eq, decide_eq_true_eq] at hc
    obtain ⟨⟨⟨⟨⟨h1, h2⟩, h3⟩, h4⟩, h5⟩, h6⟩ := hc
    cases Option.some_inj.mp h
    have := natOfDigits_lt p3 h5
    rw [h6] at this
    simpa using this
  · exact Option.noConfusion h

theorem parseWithFormat_dateOK (f : DFormat) (s : Str) (dt : Date)
    (h : parseWithFormat f s = some dt) : dateOK dt := by
  cases f with
  | iso => exact parseISO_dateOK s dt h
  | mdy =>
    simp only [parseWithFormat] at h
    obtain ⟨p, hp, hg⟩ := Option.bind_eq_some.mp h
    exact mkValidDate_dateOK _ _ _ _ (slashSplit_y_lt s p hp) hg
  | dmy =>
    simp only [parseWithFormat] at h
    obtain ⟨p, hp, hg⟩ := Option.bind_eq_some.mp h
    exact mkValidDate_dateOK _ _ _ _ (slashSplit_y_lt s p hp) hg

theorem parseFlex_dateOK (s : Str) (dt : Date) (h : parseFlex s = some dt) : dateOK dt := by
  unfold parseFlex at h
  split at h
  · rename_i dt0 hiso
    cases Option.some_inj.mp h
    exact parseISO_dateOK s _ hiso
  · rename_i hiso
    split at h
    · rename_i p hp
      split_ifs at h
      · exact mkValidDate_dateOK _ _ _ _ (slashSplit_y_lt s p hp) h
      · exact mkValidDate_dateOK _ _ _ _ (slashSplit_y_lt s p hp) h
    · exact Option.noConfusion h

theorem to_datetime_mem_dateOK (cells : List (Option Str)) (d : Option Date)
    (hd : d ∈ to_datetime cells) (dt : Date) (h : d = some dt) : dateOK dt := by
  unfold to_datetime at hd
  split at hd
  · obtain ⟨c, _, rfl⟩ := List.mem_map.mp hd
    exact Option.noConfusion h
  · split at hd
    · obtain ⟨c, _, rfl⟩ := List.mem_map.mp hd
      obtain ⟨s', hs', hps⟩ := Option.bind_eq_some.mp h
      exact parseWithFormat_dateOK _ s' dt hps
    · obtain ⟨c, _, rfl⟩ := List.mem_map.mp hd
      obtain ⟨s', hs', hps⟩ := Option.bind_eq_some.mp h
      exact parseFlex_dateOK s' dt hps

theorem parseISO_serializeDate (dt : Date) (h : dateOK dt) :
    parseISO (serializeDate dt) = some dt := by
  obtain ⟨hy, hm1, hm2, hd1, hd2⟩ := h
  have hm100 : dt.m < 100 := by omega
  have hd100 : dt.d < 100 := by
    have := daysInMonth_le_31 dt.y dt.m
    omega
  have h4 := padDigits_length_exact 4 dt.y (by norm_num) (by simpa using hy)
  have hm2l := padDigits_length_exact 2 dt.m (by norm_num) (by simpa using hm100)
  have hd2l := padDigits_length_exact 2 dt.d (by norm_num) (by simpa using hd100)
  obtain ⟨a, b, c, d, hy4⟩ := length_eq_four_exists _ h4
  obtain ⟨e, f, he2⟩ := length_eq_two_exists _ hm2l
  obtain ⟨g, i, hi2⟩ := length_eq_two_exists _ hd2l
  have hady := padDigits_allDigits 4 dt.y
  have hadm := padDigits_allDigits 2 dt.m
  have hadd := padDigits_allDigits 2 dt.d
  have hvy := padDigits_val 4 dt.y
  have hvm := padDigits_val 2 dt.m
  have hvd := padDigits_val 2 dt.d
  rw [hy4] at hady hvy
  rw [he2] at hadm hvm
  rw [hi2] at hadd hvd
  have hser : serializeDate dt = [a, b, c, d, '-', e, f, '-', g, i] := by
    rw [serializeDate, hy4, he2, hi2]
    rfl
  rw [hser]
  have halld : allDigits [a, b, c, d, e, f, g, i] = true := by
    simp only [allDigits, List.all_cons, List.all_nil, Bool.and_eq_true] at hady hadm hadd ⊢
    tauto
  simp only [parseISO, halld, beq_self_eq_true, Bool.and_true, Bool.true_and, if_true]
  rw [hvy, hvm, hvd]
  unfold mkValidDate
  rw [if_pos ⟨hm1, hm2, hd1, hd2⟩]

/-! ## Utility lemmas: trimming and column-name cleaning -/

theorem dropWhile_head_not (p : Char → Bool) (l : Str) (x : Char) (xs : Str)
    (h : l.dropWhile p = x :: xs) : p x = false := by
  induction l with
  | nil => simp at h
  | cons c cs ih =>
    rw [List.dropWhile_cons] at h
    split_ifs at h with hc
    · exact ih h
    · cases h
      simpa using hc

theorem dropWhile_eq_self_of_head (p : Char → Bool) (l : Str)
    (h : ∀ y, l.head? = some y → p y = false) : l.dropWhile p = l := by
  cases l with
  | nil => rfl
  | cons c cs =>
    rw [List.dropWhile_cons, if_neg]
    simp [h c rfl]

theorem trimL_eq_self (s : Str) (h1 : s.dropWhile Char.isWhitespace = s)
    (h2 : s.reverse.dropWhile Char.isWhitespace = s.reverse) : trimL s = s := by
  rw [trimL, h1, h2, List.reverse_reverse]

theorem trimL_nil : trimL [] = [] := rfl

theorem trimL_idem (s : Str) : trimL (trimL s) = trimL s := by
  rcases hw : (s.dropWhile Char.isWhitespace).reverse.dropWhile Char.isWhitespace
      with _ | ⟨x, xs⟩
  · have h0 : trimL s = [] := by rw [trimL, hw]; rfl
    rw [h0]
    rfl
  · have htr : trimL s = (x :: xs).reverse := by rw [trimL, hw]
    have hsuf : (x :: xs) <:+ (s.dropWhile Char.isWhitespace).reverse := by
      rw [← hw]
      exact List.dropWhile_suffix _
    obtain ⟨pre, hpre⟩ := hsuf
    have hx : Char.isWhitespace x = false :=
      dropWhile_head_not _ _ x xs hw
    rcases hu : s.dropWhile Char.isWhitespace with _ | ⟨c, cs⟩
    · rw [hu] at hpre
      simp at hpre
    · have hc : Char.isWhitespace c = false := dropWhile_head_not _ s c cs hu
      have hlast : (x :: xs).getLast? = some c := by
        have e1 : (pre ++ x :: xs).getLast? = (x :: xs).getLast? := by
          rw [List.getLast?_append]
          rcases hxl : (x :: xs).getLast? with _ | y
          · simp at hxl
          · simp [Option.or]
        rw [hpre, hu] at e1
        rw [← e1, List.getLast?_reverse]
        rfl
      apply trimL_eq_self
      · rw [htr]
        apply dropWhile_eq_self_of_head
        intro y hy
        rw [List.head?_reverse, hlast] at hy
        cases Option.some_inj.mp hy
        exact hc
      · rw [htr, List.reverse_reverse]
        apply dropWhile_eq_self_of_head
        intro y hy
        cases Option.some_inj.mp hy
        exact hx

theorem trimL_eq_nil_all_ws (s : Str) (h : trimL s = []) :
    ∀ c ∈ s, Char.isWhitespace c = true := by
  rw [trimL, List.reverse_eq_nil_iff, List.dropWhile_eq_nil_iff] at h
  intro c hc
  rcases List.mem_append.mp
      ((List.takeWhile_append_dropWhile Char.isWhitespace s) ▸ hc) with h1 | h1
  · exact List.mem_takeWhile_imp h1
  · exact h c (by simpa using (List.mem_reverse.mpr h1))

theorem mem_trimL (s : Str) (c : Char) (h : c ∈ trimL s) : c ∈ s := by
  rw [trimL] at h
  rw [List.mem_reverse] at h
  have h2 := (List.dropWhile_suffix Char.isWhitespace).mem h
  rw [List.mem_reverse] at h2
  exact (List.dropWhile_suffix Char.isWhitespace).mem h2

theorem takeWhile_append_all (p : Char → Bool) (A B : Str)
    (h : ∀ c ∈ A, p c = true) :
    (A ++ B).takeWhile p = A ++ B.takeWhile p := by
  induction A with
  | nil => rfl
  | cons x xs ih =>
    rw [List.cons_append, List.takeWhile_cons, if_pos (h x (by simp)), List.cons_append,
      ih (fun c hc => h c (List.mem_cons_of_mem _ hc))]

theorem trimL_prefix_head (s : Str) (x : Char) (xs : Str)
    (h : trimL s = x :: xs) : (s.dropWhile Char.isWhitespace).head? = some x := by
  have hpre : trimL s <+: s.dropWhile Char.isWhitespace := by
    rw [trimL]
    have hs : (s.dropWhile Char.isWhitespace).reverse.dropWhile Char.isWhitespace
        <:+ (s.dropWhile Char.isWhitespace).reverse := List.dropWhile_suffix _
    obtain ⟨pre, hpre⟩ := hs
    refine ⟨pre.reverse, ?_⟩
    rw [← List.reverse_append, hpre, List.reverse_reverse]
  rw [h] at hpre
  obtain ⟨t, ht⟩ := hpre
  rw [← ht]
  rfl

theorem cleanName_idem (c : Str) : cleanName (cleanName c) = cleanName c := by
  by_cases hb : trimL (c.takeWhile (fun ch => ch ≠ ':')) = []
  · have hcc : cleanName c = trimL c := by rw [cleanName, if_pos hb]
    rw [hcc]
    have hball := trimL_eq_nil_all_ws _ hb
    rcases ht : trimL c with _ | ⟨t0, ts⟩
    · rfl
    · have hcolon : t0 = ':' := by
        by_contra hne
        have hhd := trimL_prefix_head c t0 ts ht
        rcases hu : c.dropWhile Char.isWhitespace with _ | ⟨u0, us⟩
        · rw [hu] at hhd
          exact Option.noConfusion hhd
        · rw [hu] at hhd
          cases Option.some_inj.mp hhd
          have ht0ws : Char.isWhitespace t0 = false := dropWhile_head_not _ c t0 us hu
          have hsplit : c.takeWhile (fun ch => ch ≠ ':')
              = c.takeWhile Char.isWhitespace
                ++ (t0 :: us).takeWhile (fun ch => ch ≠ ':') := by
            conv =>
              lhs
              rw [← List.takeWhile_append_dropWhile Char.isWhitespace c]
            rw [hu]
            apply takeWhile_append_all
            intro y hy
            have hyw := List.mem_takeWhile_imp hy
            simp only [decide_eq_true_eq]
            intro hcontra
            rw [hcontra] at hyw
            exact absurd hyw (by decide)
          have ht0in : t0 ∈ c.takeWhile (fun ch => ch ≠ ':') := by
            rw [hsplit]
            apply List.mem_append_right
            rw [List.takeWhile_cons, if_pos (by simpa using hne)]
            simp
          have := hball t0 ht0in
          rw [ht0ws] at this
          exact Bool.noConfusion this
      subst hcolon
      have hinner : trimL ((':' :: ts).takeWhile (fun ch => ch ≠ ':')) = [] := by
        rw [List.takeWhile_cons, if_neg (by simp)]
        rfl
      rw [cleanName, if_pos hinner, ← ht]
      exact trimL_idem c
  · have hcc : cleanName c = trimL (c.takeWhile (fun ch => ch ≠ ':')) := by
      rw [cleanName, if_neg hb]
    rw [hcc]
    have hnc : ∀ ch ∈ trimL (c.takeWhile fun ch => ch ≠ ':'), (ch ≠ ':') := by
      intro ch hch
      have := List.mem_takeWhile_imp (mem_trimL _ ch hch)
      simpa using this
    have htw : (trimL (c.takeWhile fun ch => ch ≠ ':')).takeWhile (fun ch => ch ≠ ':')
        = trimL (c.takeWhile fun ch => ch ≠ ':') := by
      rw [List.takeWhile_eq_self_iff]
      intro x hx
      simpa using hnc x hx
    rw [cleanName, htw, trimL_idem, if_neg hb]

/-! ## Pipeline lemmas -/

theorem keep_all_true (rows3 : List (Option Date × List (Option ℚ))) (n : Nat) :
    (List.range n).map (fun j => is_numeric_dtype (rows3.map (fun r => r.2.getD j none)))
      = List.replicate n true := by
  simp [is_numeric_dtype]

theorem padRow_length (n : Nat) (cs : List Str) (h : cs.length ≤ n) :
    (padRow n cs).length = n := by
  simp [padRow]
  omega

theorem parseRows_ok_length (sep : Char) (n : Nat) (rs : List Str)
    (rows : List (List (Option Str))) (h : parseRows sep n rs = .ok rows) :
    ∀ r ∈ rows, r.length = n := by
  induction rs generalizing rows with
  | nil =>
    simp only [parseRows] at h
    cases Except.ok.inj h
    simp
  | cons r0 rs ih =>
    simp only [parseRows] at h
    split_ifs at h with hlen
    split at h
    · exact Except.noConfusion h
    · rename_i rest hrest
      cases Except.ok.inj h
      intro r hr
      rcases List.mem_cons.mp hr with rfl | hr2
      · exact padRow_length n _ (by omega)
      · exact ih rest hrest r hr2

theorem read_csv_sep_ok_width (sep : Char) (text : Str) (f : RawFrame)
    (h : read_csv_sep sep text = .ok f) : ∀ r ∈ f.rows, r.length = f.header.length := by
  unfold read_csv_sep at h
  split at h
  · exact Except.noConfusion h
  · dsimp only at h
    split at h
    · exact Except.noConfusion h
    · rename_i rows hrows
      cases Except.ok.inj h
      exact parseRows_ok_length _ _ _ _ hrows

theorem read_csv_try_ok_width (text : Str) (f : RawFrame) (h : read_csv_try text = .ok f) :
    ∀ r ∈ f.rows, r.length = f.header.length := by
  unfold read_csv_try at h
  split at h
  · split at h
    · rename_i f2 hf2
      cases Except.ok.inj h
      exact read_csv_sep_ok_width _ text _ hf2
    · exact read_csv_sep_ok_width ',' text f h
  · exact read_csv_sep_ok_width ',' text f h

theorem loadWith_ok (tp : List (Option Str) → List (Option Date)) (text : Str) (t : TTable)
    (h : loadWith tp text = .ok t) :
    ∃ raw, read_csv_try (sliceOf text) = .ok raw ∧ dupLabels raw.header = false ∧
      t = normalizeWith tp raw ∧
      (∀ r ∈ raw.rows, r.length = raw.header.length) := by
  unfold loadWith at h
  cases hr : read_csv_try (sliceOf text) with
  | error e =>
    rw [hr] at h
    exact Except.noConfusion h
  | ok raw =>
    rw [hr] at h
    simp only [Except.bind] at h
    by_cases hdup : dupLabels raw.header = true
    · rw [if_pos hdup] at h
      exact Except.noConfusion h
    · rw [if_neg hdup] at h
      exact ⟨raw, rfl, Bool.eq_false_iff.mpr hdup, (Except.ok.inj h).symm,
        read_csv_try_ok_width _ raw hr⟩

theorem normalizeWith_names (tp : List (Option Str) → List (Option Date))
    (h0 : Str) (hs : List Str) (rows : List (List (Option Str))) :
    (normalizeWith tp ⟨h0 :: hs, rows⟩).names
      = (hs.map cleanName).filter (fun c => !isMarkerCol c) := by
  unfold normalizeWith
  dsimp only
  rw [applyMask_map_filter]
  rw [List.filter_cons]
  rw [if_pos (show (!isMarkerCol (strL ("Date"))) = true by decide)]
  rw [List.drop_one, List.tail_cons]
  rw [keep_all_true]
  rw [applyMask_all_true _ _ (fun b hb => List.eq_of_mem_replicate hb) (by simp)]
  split
  · rename_i hempty
    rw [List.isEmpty_iff] at hempty
    exact hempty.symm
  · rfl

theorem normalizeWith_rows_sorted (tp : List (Option Str) → List (Option Date))
    (raw : RawFrame) :
    (normalizeWith tp raw).rows.Pairwise (fun a b => rowKey a ≤ rowKey b) := by
  unfold normalizeWith
  split
  · simp
  · dsimp only
    split
    · simp
    · exact pairwise_sortRows _

theorem normalizeWith_rows_isSome (tp : List (Option Str) → List (Option Date))
    (raw : RawFrame) :
    ∀ r ∈ (normalizeWith tp raw).rows, r.1.isSome = true := by
  unfold normalizeWith
  split
  · simp
  · dsimp only
    split
    · simp
    · intro r hr
      rw [mem_sortRows] at hr
      obtain ⟨p, hp, rfl⟩ := List.mem_map.mp hr
      obtain ⟨p2, hp2, rfl⟩ := List.mem_map.mp hp
      have := (List.mem_filter.mp hp2).2
      simpa using this

theorem normalizeFrame_rows_dateOK (raw : RawFrame) :
    ∀ r ∈ (normalizeFrame raw).rows, ∀ dt, r.1 = some dt → dateOK dt := by
  unfold normalizeFrame normalizeWith
  split
  · simp
  · dsimp only
    split
    · simp
    · intro r hr dt hdt
      rw [mem_sortRows] at hr
      obtain ⟨p, hp, rfl⟩ := List.mem_map.mp hr
      obtain ⟨p2, hp2, rfl⟩ := List.mem_map.mp hp
      have hmem := (List.mem_filter.mp hp2).1
      have hdates := (List.of_mem_zip hmem).1
      exact to_datetime_mem_dateOK _ _ hdates dt hdt

theorem normalizeWith_rows_decOK (tp : List (Option Str) → List (Option Date))
    (raw : RawFrame) :
    ∀ r ∈ (normalizeWith tp raw).rows, ∀ v ∈ r.2, ∀ q, v = some q → decOK q := by
  unfold normalizeWith
  split
  · simp
  · dsimp only
    split
    · simp
    · intro r hr v hv q hq
      rw [mem_sortRows] at hr
      obtain ⟨p, hp, rfl⟩ := List.mem_map.mp hr
      have hv2 := mem_of_mem_applyMask _ _ _ hv
      obtain ⟨p2, hp2, rfl⟩ := List.mem_map.mp hp
      simp only at hv2
      obtain ⟨cell, hcell, rfl⟩ := List.mem_map.mp hv2
      exact parseNumber_decOK _ q hq

/-! ## Header location and reader-success lemmas -/

theorem findIdx?_acc {α : Type} {p : α → Bool} (l1 l2 : List α) (x : α)
    (h : ∀ y ∈ l1, p y = false) (hx : p x = true) :
    ∀ i, List.findIdx? p (l1 ++ x :: l2) i = some (i + l1.length) := by
  induction l1 with
  | nil =>
    intro i
    simp [List.findIdx?_cons, hx]
  | cons a l1 ih =>
    intro i
    rw [List.cons_append, List.findIdx?_cons, if_neg (by simp [h a (by simp)])]
    rw [ih (fun y hy => h y (List.mem_cons_of_mem _ hy)) (i + 1)]
    simp
    omega

theorem findIdx?_none_of_all {α : Type} {p : α → Bool} (l : List α)
    (h : ∀ x ∈ l, p x = false) : ∀ i, List.findIdx? p l i = none := by
  induction l with
  | nil => intro i; rfl
  | cons a l ih =>
    intro i
    rw [List.findIdx?_cons, if_neg (by simp [h a (by simp)])]
    exact ih (fun y hy => h y (List.mem_cons_of_mem _ hy)) (i + 1)

theorem findHeaderIdx_banners (banners : List Str) (hdr : Str) (rest : List Str)
    (hN : banners.length ≤ 99)
    (hb : ∀ b ∈ banners, isHeaderLine b = false)
    (hh : isHeaderLine hdr = true) :
    findHeaderIdx (banners ++ hdr :: rest) = banners.length := by
  unfold findHeaderIdx
  have htake : (banners ++ hdr :: rest).take 100
      = banners ++ (hdr :: rest).take (100 - banners.length) := by
    have h2 := @List.take_append _ banners (hdr :: rest) (100 - banners.length)
    rw [show banners.length + (100 - banners.length) = 100 by omega] at h2
    exact h2
  have hcons : (hdr :: rest).take (100 - banners.length)
      = hdr :: rest.take (100 - banners.length - 1) := by
    rw [List.take_cons (by omega)]
  rw [htake, hcons, findIdx?_acc banners _ hdr hb hh 0]
  simp

theorem findHeaderIdx_fallback (lines : List Str) (i : Nat)
    (hnokw : ∀ l ∈ lines.take 100, isHeaderLine l = false)
    (hfind : List.findIdx? isDateLine (lines.take 100) 0 = some i) :
    findHeaderIdx lines = i - 1 := by
  unfold findHeaderIdx
  rw [findIdx?_none_of_all _ hnokw 0, hfind]

theorem findHeaderIdx_head (l1 : Str) (rest : List Str) (h : isHeaderLine l1 = true) :
    findHeaderIdx (l1 :: rest) = 0 := by
  unfold findHeaderIdx
  rw [List.take_cons (by omega), List.findIdx?_cons, if_pos h]

theorem length_unnamedFix (hs : List Str) : (unnamedFix hs).length = hs.length := by
  simp [unnamedFix]

theorem length_mangleAux (seen : List Str) (l : List Str) :
    (mangleAux seen l).length = l.length := by
  induction l generalizing seen with
  | nil => rfl
  | cons c cs ih => simp [mangleAux, ih]

theorem length_mangleDup (hs : List Str) : (mangleDup hs).length = hs.length := by
  rw [mangleDup, length_mangleAux]

theorem parseRows_ok_of_widths (sep : Char) (n : Nat) (rs : List Str)
    (h : ∀ r ∈ rs, (splitOnC sep r).length ≤ n) :
    (parseRows sep n rs).isOk = true := by
  induction rs with
  | nil => rfl
  | cons r rs ih =>
    simp only [parseRows]
    rw [if_neg (by have := h r (by simp); omega)]
    have := ih (fun x hx => h x (List.mem_cons_of_mem _ hx))
    cases hp : parseRows sep n rs with
    | error e => rw [hp] at this; exact Bool.noConfusion this
    | ok rest => rfl

theorem read_csv_sep_comma_ok (text : Str) (h : widthsOK text = true) :
    (read_csv_sep ',' (sliceOf text)).isOk = true := by
  unfold widthsOK at h
  unfold read_csv_sep
  split
  · rename_i heq
    rw [heq] at h
    exact Bool.noConfusion h
  · rename_i h0 rs heq
    rw [heq] at h
    dsimp only at h ⊢
    rw [List.all_eq_true] at h
    have hwid : ∀ r ∈ rs, (splitOnC ',' r).length
        ≤ (mangleDup (unnamedFix (splitOnC ',' h0))).length := by
      intro r hr
      rw [length_mangleDup, length_unnamedFix]
      have := h r hr
      simpa using this
    have := parseRows_ok_of_widths ',' _ rs hwid
    cases hp : parseRows ',' (mangleDup (unnamedFix (splitOnC ',' h0))).length rs with
    | error e => rw [hp] at this; exact Bool.noConfusion this
    | ok rows => rfl

theorem read_csv_try_ok_of_good (text : Str) (h : widthsOK text = true) :
    (read_csv_try (sliceOf text)).isOk = true := by
  have hcomma := read_csv_sep_comma_ok text h
  unfold read_csv_try
  split
  · rename_i sep hsep
    split
    · rfl
    · exact hcomma
  · exact hcomma

theorem load_ok_of_good (text : Str) (h : goodContent text = true) :
    (load_trends_csv text).isOk = true := by
  unfold goodContent at h
  rw [Bool.and_eq_true] at h
  obtain ⟨-, h2⟩ := h
  unfold load_trends_csv loadWith
  cases hr : read_csv_try (sliceOf text) with
  | error e =>
    rw [hr] at h2
    exact Bool.noConfusion h2
  | ok raw =>
    rw [hr] at h2
    dsimp only at h2
    simp only [Bool.not_eq_true'] at h2
    simp only [Except.bind]
    rw [if_neg (by rw [h2]; exact Bool.noConfusion)]
    rfl

theorem normalizeFrame_rows_count (h0 : Str) (hs : List Str)
    (rows : List (List (Option Str)))
    (hne : (hs.map cleanName).filter (fun c => !isMarkerCol c) ≠ []) :
    (normalizeFrame ⟨h0 :: hs, rows⟩).rows.length
      = (to_datetime (timeColumnOf ⟨h0 :: hs, rows⟩)).countP (fun d => d.isSome) := by
  unfold normalizeFrame normalizeWith timeColumnOf
  dsimp only
  simp only [List.tail_cons]
  rw [applyMask_map_filter, List.filter_cons,
    if_pos (show (!isMarkerCol (strL ("Date"))) = true by decide),
    List.drop_one, List.tail_cons, keep_all_true,
    applyMask_all_true _ _ (fun b hb => List.eq_of_mem_replicate hb) (by simp)]
  rw [if_neg (by simpa [List.isEmpty_iff] using hne)]
  dsimp only
  rw [length_sortRows, List.length_map, List.length_map]
  rw [length_filter_zip_isSome]
  rw [length_to_datetime, List.length_map]

theorem normalizeWith_rows_width (tp : List (Option Str) → List (Option Date))
    (h0 : Str) (hs : List Str) (rows : List (List (Option Str)))
    (hw : ∀ r ∈ rows, r.length = hs.length + 1) :
    ∀ r ∈ (normalizeWith tp ⟨h0 :: hs, rows⟩).rows,
      r.2.length = ((hs.map cleanName).filter (fun c => !isMarkerCol c)).length := by
  unfold normalizeWith
  dsimp only
  rw [applyMask_map_filter, List.filter_cons,
    if_pos (show (!isMarkerCol (strL ("Date"))) = true by decide),
    List.drop_one, List.tail_cons, keep_all_true,
    applyMask_all_true _ _ (fun b hb => List.eq_of_mem_replicate hb) (by simp)]
  split
  · simp
  · intro r hr
    rw [mem_sortRows] at hr
    obtain ⟨p, hp, rfl⟩ := List.mem_map.mp hr
    obtain ⟨p2, hp2, rfl⟩ := List.mem_map.mp hp
    dsimp only
    have hp2mem := (List.mem_filter.mp hp2).1
    have hrow1 := (List.of_mem_zip hp2mem).2
    obtain ⟨row, hrow, hrowEq⟩ := List.mem_map.mp hrow1
    have hrlen : row.length = hs.length + 1 := hw row hrow
    have hmasklen : ((strL ("Date") :: hs.map cleanName).map (fun c => !isMarkerCol c)).length
        = hs.length + 1 := by simp
    have h1 : p2.2.length
        = 1 + ((hs.map cleanName).filter (fun c => !isMarkerCol c)).length := by
      rw [← hrowEq]
      rw [applyMask_length _ _ (by rw [hrlen, hmasklen])]
      rw [List.countP_map]
      have hid : (id ∘ fun c => !isMarkerCol c) = (fun c => !isMarkerCol c) := rfl
      rw [hid]
      rw [List.countP_cons]
      rw [List.countP_eq_length_filter]
      simp [show (!isMarkerCol (strL ("Date"))) = true from by decide]
      omega
    rw [applyMask_all_true _ _ (fun b hb => List.eq_of_mem_replicate hb)
      (by simp only [List.length_map, List.length_drop, List.length_replicate, h1]; omega)]
    simp only [List.length_map, List.length_drop, h1]
    omega

/-! ## End-to-end evaluation of a single symbolic data cell -/

theorem mkCellInput_eq_joinSep (s : Str) :
    mkCellInput s = joinSep '\n' [strL ("Week,A"), strL ("2024-01-01,") ++ s] := by
  show strL ("Week,A\n2024-01-01,") ++ s = _
  rw [joinSep_cons _ _ _ (by simp)]
  rw [show joinSep '\n' [strL ("2024-01-01,") ++ s] = strL ("2024-01-01,") ++ s from rfl]
  rw [show strL ("Week,A\n2024-01-01,")
      = strL ("Week,A") ++ '\n' :: strL ("2024-01-01,") from by decide]
  simp

theorem splitLines_mkCellInput (s : Str) (hnol : ∀ c ∈ s, c ≠ '\n') :
    splitLines (mkCellInput s) = [strL ("Week,A"), strL ("2024-01-01,") ++ s] := by
  rw [mkCellInput_eq_joinSep]
  apply splitLines_joinSep _ (by simp)
  · intro p hp
    simp only [List.mem_cons, List.not_mem_nil, or_false] at hp
    rcases hp with rfl | rfl
    · decide
    · rw [show strL ("2024-01-01,") = '2' :: strL ("024-01-01,") from rfl]
      simp
  · intro p hp
    simp only [List.mem_cons, List.not_mem_nil, or_false] at hp
    rcases hp with rfl | rfl
    · intro c hc
      have hall : ∀ c ∈ strL ("Week,A"), c ≠ '\n' := by decide
      exact hall c hc
    · intro c hc
      rcases List.mem_append.mp hc with h1 | h1
      · have hall : ∀ c ∈ strL ("2024-01-01,"), c ≠ '\n' := by decide
        exact hall c h1
      · exact hnol c h1

theorem slice_mkCellInput (s : Str) (hnol : ∀ c ∈ s, c ≠ '\n') :
    sliceOf (mkCellInput s) = mkCellInput s := by
  unfold sliceOf
  rw [splitLines_mkCellInput s hnol, findHeaderIdx_head _ _ (by decide), List.drop_zero]
  exact (mkCellInput_eq_joinSep s).symm

theorem splitRow_mkCell (s : Str) (hnoc : ∀ c ∈ s, c ≠ ',') :
    splitOnC ',' (strL ("2024-01-01,") ++ s) = [strL ("2024-01-01"), s] := by
  rw [show strL ("2024-01-01,") = strL ("2024-01-01") ++ [','] from by decide]
  rw [List.append_assoc, List.singleton_append]
  rw [splitOnC_append _ _ _ (by decide)]
  rw [splitOnC_no_sep ',' s hnoc]

theorem read_mkCellInput (s : Str) (hnol : ∀ c ∈ s, c ≠ '\n') (hnoc : ∀ c ∈ s, c ≠ ',') :
    read_csv_try (sliceOf (mkCellInput s))
      = .ok ⟨[strL ("Week"), strL ("A")], [[some (strL ("2024-01-01")), cellOf s]]⟩ := by
  have hlines := splitLines_mkCellInput s hnol
  have hfilter : [strL ("Week,A"), strL ("2024-01-01,") ++ s].filter (fun l => !l.isEmpty)
      = [strL ("Week,A"), strL ("2024-01-01,") ++ s] := by
    rw [List.filter_eq_self]
    intro a ha
    simp only [List.mem_cons, List.not_mem_nil, or_false] at ha
    rcases ha with rfl | rfl
    · decide
    · rw [show strL ("2024-01-01,") = '2' :: strL ("024-01-01,") from rfl]
      simp
  have hsep : read_csv_sep ',' (mkCellInput s)
      = .ok ⟨[strL ("Week"), strL ("A")], [[some (strL ("2024-01-01")), cellOf s]]⟩ := by
    unfold read_csv_sep
    rw [hlines, hfilter]
    dsimp only
    rw [show mangleDup (unnamedFix (splitOnC ',' (strL ("Week,A"))))
        = [strL ("Week"), strL ("A")] from by decide]
    simp only [parseRows]
    rw [splitRow_mkCell s hnoc]
    rw [if_neg (by simp)]
    rw [show padRow ([strL ("Week"), strL ("A")]).length [strL ("2024-01-01"), s]
        = [some (strL ("2024-01-01")), cellOf s] from by
      simp only [padRow, List.map_cons, List.map_nil, List.length_cons]
      rw [show cellOf (strL ("2024-01-01")) = some (strL ("2024-01-01")) from by decide]
      simp]
  unfold read_csv_try sniffSep
  rw [slice_mkCellInput s hnol, hlines, hfilter]
  dsimp only
  rw [show List.find? (fun c => (strL ("Week,A")).contains c) [',', '\t', ';'] = some ','
      from by decide]
  dsimp only
  rw [hsep]

theorem load_mkCellInput (s : Str) (hnol : ∀ c ∈ s, c ≠ '\n') (hnoc : ∀ c ∈ s, c ≠ ',') :
    load_trends_csv (mkCellInput s)
      = .ok ⟨[strL ("A")], [(some ⟨2024, 1, 1⟩, [parseNumber (cleanNumStr s)])]⟩ := by
  have hframe : normalizeFrame ⟨[strL ("Week"), strL ("A")], [[some (strL ("2024-01-01")), cellOf s]]⟩
      = ⟨[strL ("A")], [(some ⟨2024, 1, 1⟩, [coerceCell (cellOf s)])]⟩ := rfl
  have hco : coerceCell (cellOf s) = parseNumber (cleanNumStr s) := by
    unfold cellOf
    split_ifs with hs0
    · rw [hs0]
      decide
    · rfl
  unfold load_trends_csv loadWith
  rw [read_mkCellInput s hnol hnoc]
  simp only [Except.bind]
  rw [if_neg (show ¬(dupLabels [strL ("Week"), strL ("A")] = true) from by decide)]
  rw [show normalizeWith to_datetime ⟨[strL ("Week"), strL ("A")],
      [[some (strL ("2024-01-01")), cellOf s]]⟩
      = normalizeFrame ⟨[strL ("Week"), strL ("A")],
      [[some (strL ("2024-01-01")), cellOf s]]⟩ from rfl]
  rw [hframe, hco]

/-! ## Serializer character classes and reader identity lemmas -/

theorem padDigits_mem_digit (w n : Nat) (c : Char) (h : c ∈ padDigits w n) :
    c.isDigit = true := by
  have hall := padDigits_allDigits w n
  rw [allDigits, List.all_eq_true] at hall
  exact hall c h

theorem serializeDate_mem (dt : Date) (c : Char) (h : c ∈ serializeDate dt) :
    c.isDigit = true ∨ c = '-' := by
  unfold serializeDate at h
  rcases List.mem_append.mp h with h1 | h1
  · rcases List.mem_append.mp h1 with h2 | h2
    · exact Or.inl (padDigits_mem_digit _ _ _ h2)
    rcases List.mem_cons.mp h2 with rfl | h3
    · exact Or.inr rfl
    · exact Or.inl (padDigits_mem_digit _ _ _ h3)
  rcases List.mem_cons.mp h1 with rfl | h3
  · exact Or.inr rfl
  · exact Or.inl (padDigits_mem_digit _ _ _ h3)

theorem serializeQ_mem (q : ℚ) (c : Char) (h : c ∈ serializeQ q) :
    c.isDigit = true ∨ c = '.' ∨ c = '-' := by
  unfold serializeQ at h
  dsimp only at h
  rcases List.mem_append.mp h with h1 | h1
  · rcases List.mem_append.mp h1 with h2 | h2
    · split at h2
      · rcases List.mem_cons.mp h2 with rfl | h3
        · exact Or.inr (Or.inr rfl)
        · simp at h3
      · simp at h2
    · exact Or.inl (padDigits_mem_digit _ _ _ (List.take_subset _ _ h2))
  rcases List.mem_cons.mp h1 with rfl | h3
  · exact Or.inr (Or.inl rfl)
  · exact Or.inl (padDigits_mem_digit _ _ _ (List.drop_subset _ _ h3))

theorem serializeDate_ne_nil (dt : Date) : serializeDate dt ≠ [] := by
  unfold serializeDate
  intro h
  exact List.noConfusion (List.append_eq_nil.mp h).2

theorem serializeQ_ne_nil (q : ℚ) : serializeQ q ≠ [] := by
  unfold serializeQ
  dsimp only
  intro h
  exact List.noConfusion (List.append_eq_nil.mp h).2

theorem digit_ne_comma_nl (c : Char) (h : c.isDigit = true) :
    c ≠ ',' ∧ c ≠ '\n' := by
  have hb := isDigit_bounds c h
  constructor <;> (intro hc; subst hc; simp at hb)

theorem mem_joinSep (sep : Char) (parts : List Str) (c : Char)
    (h : c ∈ joinSep sep parts) : c = sep ∨ ∃ p ∈ parts, c ∈ p := by
  induction parts with
  | nil => simp [joinSep] at h
  | cons p ps ih =>
    cases ps with
    | nil => exact Or.inr ⟨p, by simp, h⟩
    | cons q qs =>
      rw [joinSep_cons _ _ _ (by simp)] at h
      rcases List.mem_append.mp h with h1 | h1
      · exact Or.inr ⟨p, by simp, h1⟩
      rcases List.mem_cons.mp h1 with rfl | h3
      · exact Or.inl rfl
      rcases ih h3 with h4 | ⟨x, hx, hcx⟩
      · exact Or.inl h4
      · exact Or.inr ⟨x, List.mem_cons_of_mem _ hx, hcx⟩

theorem enumFrom_unnamed_id (hs : List Str) (h : ∀ x ∈ hs, x ≠ []) : ∀ n,
    (List.enumFrom n hs).map
      (fun p => if p.2 = [] then strL ("Unnamed: ") ++ natStr p.1 else p.2) = hs := by
  induction hs with
  | nil => intro n; rfl
  | cons x xs ih =>
    intro n
    simp only [List.enumFrom, List.map_cons]
    rw [if_neg (h x (by simp))]
    rw [ih (fun y hy => h y (List.mem_cons_of_mem _ hy)) (n + 1)]

theorem unnamedFix_id (hs : List Str) (h : ∀ x ∈ hs, x ≠ []) : unnamedFix hs = hs := by
  unfold unnamedFix
  exact enumFrom_unnamed_id hs h 0

theorem mangleAux_id (l : List Str) (hd : l.Nodup) : ∀ seen : List Str,
    (∀ x ∈ l, x ∉ seen) → mangleAux seen l = l := by
  induction l with
  | nil => intro seen _; rfl
  | cons c cs ih =>
    intro seen hs
    unfold mangleAux
    dsimp only
    rw [if_pos (List.count_eq_zero.mpr (hs c (by simp)))]
    rw [ih (List.Nodup.of_cons hd) (c :: seen) ?_]
    intro x hx
    rw [List.mem_cons]
    push_neg
    refine ⟨?_, hs x (List.mem_cons_of_mem _ hx)⟩
    intro hxc
    subst hxc
    exact (List.nodup_cons.mp hd).1 hx

theorem mangleDup_id (l : List Str) (hd : l.Nodup) : mangleDup l = l :=
  mangleAux_id l hd [] (by simp)

theorem parseRows_exact (sep : Char) (n : Nat) (rs : List Str)
    (h : ∀ r ∈ rs, (splitOnC sep r).length = n) :
    parseRows sep n rs = .ok (rs.map (fun r => padRow n (splitOnC sep r))) := by
  induction rs with
  | nil => rfl
  | cons r rs ih =>
    simp only [parseRows]
    rw [if_neg (by rw [h r (by simp)]; omega)]
    rw [ih (fun x hx => h x (List.mem_cons_of_mem _ hx))]
    rfl

theorem padRow_exact (n : Nat) (cs : List Str) (h : cs.length = n) :
    padRow n cs = cs.map cellOf := by
  simp [padRow, h]

theorem cellOf_serializeCell (v : Option ℚ) :
    cellOf (serializeCell v) = v.map serializeQ := by
  cases v with
  | none => rfl
  | some q =>
    unfold serializeCell cellOf
    rw [if_neg (serializeQ_ne_nil q)]
    rfl

theorem serializeDate_no_comma_nl (dt : Date) (c : Char) (h : c ∈ serializeDate dt) :
    c ≠ ',' ∧ c ≠ '\n' := by
  rcases serializeDate_mem dt c h with h1 | rfl
  · exact digit_ne_comma_nl c h1
  · exact ⟨by decide, by decide⟩

theorem serializeQ_no_comma_nl (q : ℚ) (c : Char) (h : c ∈ serializeQ q) :
    c ≠ ',' ∧ c ≠ '\n' := by
  rcases serializeQ_mem q c h with h1 | rfl | rfl
  · exact digit_ne_comma_nl c h1
  · exact ⟨by decide, by decide⟩
  · exact ⟨by decide, by decide⟩

theorem serializeCell_no_comma_nl (v : Option ℚ) (c : Char) (h : c ∈ serializeCell v) :
    c ≠ ',' ∧ c ≠ '\n' := by
  cases v with
  | none => simp [serializeCell] at h
  | some q => exact serializeQ_no_comma_nl q c h

theorem splitRow_serialized (r : Option Date × List (Option ℚ)) (dt : Date)
    (hdt : r.1 = some dt) :
    splitOnC ',' (joinSep ',' ((r.1.map serializeDate).getD [] :: r.2.map serializeCell))
      = serializeDate dt :: r.2.map serializeCell := by
  rw [hdt]
  rw [show ((some dt).map serializeDate).getD [] = serializeDate dt from rfl]
  apply splitOnC_joinSep ',' _ (by simp)
  intro p hp
  rcases List.mem_cons.mp hp with rfl | hp2
  · exact fun c hc => (serializeDate_no_comma_nl dt c hc).1
  obtain ⟨v, _, rfl⟩ := List.mem_map.mp hp2
  exact fun c hc => (serializeCell_no_comma_nl v c hc).1

theorem rowLine_ne_nil (r : Option Date × List (Option ℚ)) (dt : Date)
    (hdt : r.1 = some dt) :
    joinSep ',' ((r.1.map serializeDate).getD [] :: r.2.map serializeCell) ≠ [] := by
  rw [hdt]
  exact joinSep_ne_nil ',' _ _ (serializeDate_ne_nil dt)

theorem rowLine_no_nl (r : Option Date × List (Option ℚ)) (c : Char)
    (h : c ∈ joinSep ',' ((r.1.map serializeDate).getD [] :: r.2.map serializeCell)) :
    c ≠ '\n' := by
  rcases mem_joinSep ',' _ c h with rfl | ⟨p, hp, hc⟩
  · decide
  rcases List.mem_cons.mp hp with rfl | hp2
  · cases hr1 : r.1 with
    | none => rw [hr1] at hc; simp at hc
    | some dt =>
      rw [hr1] at hc
      exact (serializeDate_no_comma_nl dt c hc).2
  obtain ⟨v, _, rfl⟩ := List.mem_map.mp hp2
  exact (serializeCell_no_comma_nl v c hc).2

theorem hdrLine_no_nl (names : List Str)
    (hchars : ∀ n ∈ names, ∀ c ∈ n, c ≠ ',' ∧ c ≠ '\n') (c : Char)
    (h : c ∈ joinSep ',' (strL ("Date") :: names)) : c ≠ '\n' := by
  rcases mem_joinSep ',' _ c h with rfl | ⟨p, hp, hc⟩
  · decide
  rcases List.mem_cons.mp hp with rfl | hp2
  · have hall : ∀ x ∈ strL ("Date"), x ≠ '\n' := by decide
    exact hall c hc
  · exact (hchars p hp2 c hc).2

theorem hdrLine_contains_comma (names : List Str) (hne : names ≠ []) :
    (joinSep ',' (strL ("Date") :: names)).contains ',' = true := by
  apply List.elem_eq_true_of_mem
  rw [joinSep_cons ',' _ _ hne]
  exact List.mem_append.mpr (Or.inr (List.mem_cons_self _ _))

theorem hdrLine_isHeader (names : List Str) (hne : names ≠ []) :
    isHeaderLine (joinSep ',' (strL ("Date") :: names)) = true := by
  unfold isHeaderLine hasDelim
  rw [hdrLine_contains_comma names hne]
  simp only [Bool.true_or, Bool.true_and]
  apply List.any_eq_true.mpr
  refine ⟨strL ("date"), by decide, ?_⟩
  unfold containsSub
  apply List.any_eq_true.mpr
  refine ⟨lowerL (joinSep ',' (strL ("Date") :: names)), (List.mem_tails _ _).mpr (List.suffix_refl _), ?_⟩
  rw [joinSep_cons ',' _ _ hne]
  rw [show lowerL (strL ("Date") ++ ',' :: joinSep ',' names)
      = strL ("date") ++ lowerL (',' :: joinSep ',' names) from by
    unfold lowerL; rw [List.map_append]; rfl]
  exact List.isPrefixOf_iff_prefix.mpr (List.prefix_append _ _)

theorem read_to_csv (t : TTable)
    (hne : t.names ≠ []) (hnodup : t.names.Nodup)
    (hnn : ∀ n ∈ t.names, n ≠ [])
    (hnd : ∀ n ∈ t.names, n ≠ strL ("Date"))
    (hchars : ∀ n ∈ t.names, ∀ c ∈ n, c ≠ ',' ∧ c ≠ '\n')
    (hsome : ∀ r ∈ t.rows, r.1.isSome = true)
    (hw : ∀ r ∈ t.rows, r.2.length = t.names.length) :
    read_csv_try (sliceOf (to_csv t))
      = .ok ⟨strL ("Date") :: t.names,
          t.rows.map (fun r =>
            (r.1.map serializeDate) :: r.2.map (fun v => v.map serializeQ))⟩ := by
  have htocsv : to_csv t = joinSep '\n'
      (joinSep ',' (strL ("Date") :: t.names) ::
        t.rows.map (fun r =>
          joinSep ',' ((r.1.map serializeDate).getD [] :: r.2.map serializeCell))) := rfl
  have hpne : ∀ p ∈ joinSep ',' (strL ("Date") :: t.names) ::
      t.rows.map (fun r =>
        joinSep ',' ((r.1.map serializeDate).getD [] :: r.2.map serializeCell)), p ≠ [] := by
    intro p hp
    rcases List.mem_cons.mp hp with rfl | hp2
    · exact joinSep_ne_nil ',' _ _ (by decide)
    obtain ⟨r, hr, rfl⟩ := List.mem_map.mp hp2
    obtain ⟨dt, hdt⟩ := Option.isSome_iff_exists.mp (hsome r hr)
    exact rowLine_ne_nil r dt hdt
  have hpnl : ∀ p ∈ joinSep ',' (strL ("Date") :: t.names) ::
      t.rows.map (fun r =>
        joinSep ',' ((r.1.map serializeDate).getD [] :: r.2.map serializeCell)),
      ∀ c ∈ p, c ≠ '\n' := by
    intro p hp c hc
    rcases List.mem_cons.mp hp with rfl | hp2
    · exact hdrLine_no_nl t.names hchars c hc
    obtain ⟨r, hr, rfl⟩ := List.mem_map.mp hp2
    exact rowLine_no_nl r c hc
  have hsplit : splitLines (to_csv t)
      = joinSep ',' (strL ("Date") :: t.names) ::
        t.rows.map (fun r =>
          joinSep ',' ((r.1.map serializeDate).getD [] :: r.2.map serializeCell)) := by
    rw [htocsv]
    exact splitLines_joinSep _ (by simp) hpne hpnl
  have hfilter : (joinSep ',' (strL ("Date") :: t.names) ::
      t.rows.map (fun r =>
        joinSep ',' ((r.1.map serializeDate).getD [] :: r.2.map serializeCell))).filter
        (fun l => !l.isEmpty)
      = joinSep ',' (strL ("Date") :: t.names) ::
        t.rows.map (fun r =>
          joinSep ',' ((r.1.map serializeDate).getD [] :: r.2.map serializeCell)) := by
    apply List.filter_eq_self.mpr
    intro a ha
    simp [List.isEmpty_iff, hpne a ha]
  have hslice : sliceOf (to_csv t) = to_csv t := by
    unfold sliceOf
    rw [hsplit, findHeaderIdx_head _ _ (hdrLine_isHeader t.names hne), List.drop_zero]
    exact htocsv.symm
  have hsniff : sniffSep (to_csv t) = some ',' := by
    unfold sniffSep
    rw [hsplit, hfilter]
    dsimp only
    exact List.find?_cons_of_pos _ (hdrLine_contains_comma t.names hne)
  have hcells : splitOnC ',' (joinSep ',' (strL ("Date") :: t.names))
      = strL ("Date") :: t.names := by
    apply splitOnC_joinSep ',' _ (by simp)
    intro p hp
    rcases List.mem_cons.mp hp with rfl | hp2
    · decide
    · exact fun c hc => (hchars p hp2 c hc).1
  have hnodup2 : (strL ("Date") :: t.names).Nodup := by
    rw [List.nodup_cons]
    exact ⟨fun hmem => hnd _ hmem rfl, hnodup⟩
  have hsep : read_csv_sep ',' (to_csv t)
      = .ok ⟨strL ("Date") :: t.names,
          t.rows.map (fun r =>
            (r.1.map serializeDate) :: r.2.map (fun v => v.map serializeQ))⟩ := by
    unfold read_csv_sep
    rw [hsplit, hfilter]
    dsimp only
    rw [hcells]
    rw [unnamedFix_id _ (by
      intro x hx
      rcases List.mem_cons.mp hx with rfl | hx2
      · decide
      · exact hnn x hx2)]
    rw [mangleDup_id _ hnodup2]
    rw [parseRows_exact ',' _ _ (by
      intro line hline
      obtain ⟨r, hr, rfl⟩ := List.mem_map.mp hline
      obtain ⟨dt, hdt⟩ := Option.isSome_iff_exists.mp (hsome r hr)
      rw [splitRow_serialized r dt hdt]
      simp [hw r hr])]
    dsimp only
    refine congrArg Except.ok (congrArg (RawFrame.mk (strL ("Date") :: t.names)) ?_)
    rw [List.map_map]
    apply List.map_congr_left
    intro r hr
    obtain ⟨dt, hdt⟩ := Option.isSome_iff_exists.mp (hsome r hr)
    show padRow _ (splitOnC ',' (joinSep ',' _)) = _
    rw [splitRow_serialized r dt hdt]
    rw [padRow_exact _ _ (by simp [hw r hr])]
    rw [List.map_cons, List.map_map]
    rw [hdt]
    refine congrArg₂ List.cons ?_ ?_
    · show cellOf (serializeDate dt) = some (serializeDate dt)
      unfold cellOf
      rw [if_neg (serializeDate_ne_nil dt)]
    · apply List.map_congr_left
      intro v hv
      exact cellOf_serializeCell v
  rw [hslice]
  unfold read_csv_try
  rw [hsniff]
  dsimp only
  rw [hsep]

theorem to_datetime_rows_serialized (rows : List (Option Date × List (Option ℚ)))
    (hsome : ∀ r ∈ rows, r.1.isSome = true)
    (hok : ∀ r ∈ rows, ∀ dt, r.1 = some dt → dateOK dt) :
    to_datetime (rows.map (fun r => r.1.map serializeDate))
      = rows.map (fun r => r.1) := by
  cases rows with
  | nil => rfl
  | cons r0 rest =>
    obtain ⟨dt0, hdt0⟩ := Option.isSome_iff_exists.mp (hsome r0 (by simp))
    have hp0 : parseISO (serializeDate dt0) = some dt0 :=
      parseISO_serializeDate dt0 (hok r0 (by simp) dt0 hdt0)
    have hguess : guessFormat (serializeDate dt0) = some DFormat.iso := by
      unfold guessFormat
      rw [if_pos (by rw [hp0]; rfl)]
    unfold to_datetime
    rw [List.map_cons, hdt0]
    rw [show Option.map serializeDate (some dt0) = some (serializeDate dt0) from rfl]
    dsimp only [firstSome]
    rw [hguess]
    dsimp only
    rw [List.map_cons, List.map_map]
    refine congrArg₂ List.cons ?_ ?_
    · show (some (serializeDate dt0)).bind (parseWithFormat .iso) = r0.1
      rw [hdt0]
      exact hp0
    · apply List.map_congr_left
      intro r hr
      obtain ⟨dt, hdt⟩ := Option.isSome_iff_exists.mp (hsome r (List.mem_cons_of_mem _ hr))
      show (r.1.map serializeDate).bind (parseWithFormat .iso) = r.1
      rw [hdt]
      show parseISO (serializeDate dt) = some dt
      exact parseISO_serializeDate dt (hok r (List.mem_cons_of_mem _ hr) dt hdt)

theorem normalize_serialized (t : TTable)
    (hne : t.names ≠ [])
    (hclean : ∀ n ∈ t.names, cleanName n = n)
    (hmarker : ∀ n ∈ t.names, isMarkerCol n = false)
    (hsome : ∀ r ∈ t.rows, r.1.isSome = true)
    (hdok : ∀ r ∈ t.rows, ∀ dt, r.1 = some dt → dateOK dt)
    (hqok : ∀ r ∈ t.rows, ∀ v ∈ r.2, ∀ q, v = some q → decOK q)
    (hw : ∀ r ∈ t.rows, r.2.length = t.names.length)
    (hsorted : t.rows.Pairwise (fun a b => rowKey a ≤ rowKey b)) :
    normalizeWith to_datetime
      ⟨strL ("Date") :: t.names,
        t.rows.map (fun r =>
          (r.1.map serializeDate) :: r.2.map (fun v => v.map serializeQ))⟩
      = t := by
  have hmapclean : t.names.map cleanName = t.names :=
    (List.map_congr_left (fun n hn => (hclean n hn : cleanName n = id n)) :
        t.names.map cleanName = t.names.map id).trans (List.map_id _)
  have hfilterN : t.names.filter (fun c => !isMarkerCol c) = t.names :=
    List.filter_eq_self.mpr (fun a ha => by simp [hmarker a ha])
  have hmaskT : ∀ b ∈ (strL ("Date") :: t.names).map (fun c => !isMarkerCol c),
      b = true := by
    intro b hb
    obtain ⟨c, hc, rfl⟩ := List.mem_map.mp hb
    rcases List.mem_cons.mp hc with rfl | hc2
    · decide
    · simp [hmarker c hc2]
  have hrows1 : (t.rows.map (fun r =>
        (r.1.map serializeDate) :: r.2.map (fun v => v.map serializeQ))).map
        (fun r => applyMask ((strL ("Date") :: t.names).map (fun c => !isMarkerCol c)) r)
      = t.rows.map (fun r =>
        (r.1.map serializeDate) :: r.2.map (fun v => v.map serializeQ)) := by
    rw [List.map_map]
    conv_rhs => rw [← List.map_id (t.rows.map (fun r =>
      (r.1.map serializeDate) :: r.2.map (fun v => v.map serializeQ)))]
    rw [List.map_map]
    apply List.map_congr_left
    intro r hr
    show applyMask _ _ = _
    apply applyMask_all_true _ _ hmaskT
    simp [hw r hr]
  have hheadD : (t.rows.map (fun r =>
        (r.1.map serializeDate) :: r.2.map (fun v => v.map serializeQ))).map
        (fun r => r.headD none)
      = t.rows.map (fun r => r.1.map serializeDate) := by
    rw [List.map_map]
    apply List.map_congr_left
    intro r hr
    rfl
  have hfiltrows : (t.rows.map (fun r =>
        ((r.1 : Option Date),
          (r.1.map serializeDate) :: r.2.map (fun v => v.map serializeQ)))).filter
        (fun p => p.1.isSome)
      = t.rows.map (fun r =>
        ((r.1 : Option Date),
          (r.1.map serializeDate) :: r.2.map (fun v => v.map serializeQ))) := by
    apply List.filter_eq_self.mpr
    intro p hp
    obtain ⟨r, hr, rfl⟩ := List.mem_map.mp hp
    exact hsome r hr
  have hrows3 : (t.rows.map (fun r =>
        ((r.1 : Option Date),
          (r.1.map serializeDate) :: r.2.map (fun v => v.map serializeQ)))).map
        (fun p => (p.1, (p.2.drop 1).map coerceCell))
      = t.rows := by
    rw [List.map_map]
    conv_rhs => rw [← List.map_id t.rows]
    apply List.map_congr_left
    intro r hr
    obtain ⟨d, cells⟩ := r
    show ((d : Option Date),
        (((d.map serializeDate) :: cells.map (fun v => v.map serializeQ)).drop 1).map
          coerceCell) = (d, cells)
    rw [List.drop_one, List.tail_cons, List.map_map]
    refine congrArg (Prod.mk d) ?_
    conv_rhs => rw [← List.map_id cells]
    apply List.map_congr_left
    intro v hv
    show coerceCell (v.map serializeQ) = v
    cases v with
    | none => decide
    | some q =>
      show parseNumber (cleanNumStr (serializeQ q)) = some q
      exact parseNumber_cleanNum_serializeQ q (hqok (d, cells) hr (some q) hv q rfl)
  have hlast : t.rows.map
        (fun p => ((p.1 : Option Date), applyMask (List.replicate t.names.length true) p.2))
      = t.rows := by
    conv_rhs => rw [← List.map_id t.rows]
    apply List.map_congr_left
    intro r hr
    obtain ⟨d, cells⟩ := r
    show ((d : Option Date), applyMask _ cells) = (d, cells)
    refine congrArg (Prod.mk d) ?_
    exact applyMask_all_true _ _ (fun b hb => List.eq_of_mem_replicate hb)
      (by simp [show cells.length = t.names.length from hw (d, cells) hr])
  unfold normalizeWith
  dsimp only
  rw [hmapclean]
  rw [applyMask_map_filter, List.filter_cons,
    if_pos (show (!isMarkerCol (strL ("Date"))) = true by decide), hfilterN]
  rw [hrows1, hheadD, to_datetime_rows_serialized t.rows hsome hdok]
  rw [List.zip_map']
  rw [hfiltrows, hrows3]
  rw [List.drop_one, List.tail_cons]
  rw [keep_all_true]
  rw [applyMask_all_true _ _ (fun b hb => List.eq_of_mem_replicate hb) (by simp)]
  rw [if_neg (by simpa [List.isEmpty_iff] using hne)]
  rw [hlast, sortRows_of_pairwise t.rows hsorted]

theorem hasDup_eq_false (l : List Str) (h : l.Nodup) : hasDup l = false := by
  induction l with
  | nil => rfl
  | cons x xs ih =>
    rw [List.nodup_cons] at h
    unfold hasDup
    rw [ih h.2, Bool.or_false]
    by_contra hc
    rw [Bool.not_eq_false] at hc
    exact h.1 (List.mem_of_elem_eq_true hc)

theorem nodup_of_hasDup_eq_false (l : List Str) (h : hasDup l = false) : l.Nodup := by
  induction l with
  | nil => exact List.nodup_nil
  | cons x xs ih =>
    unfold hasDup at h
    rw [Bool.or_eq_false_iff] at h
    rw [List.nodup_cons]
    refine ⟨fun hmem => ?_, ih h.2⟩
    have hc : xs.contains x = true := List.elem_eq_true_of_mem hmem
    rw [hc] at h
    exact Bool.noConfusion h.1

theorem dupLabels_false_of_names (names : List Str)
    (hclean : ∀ n ∈ names, cleanName n = n)
    (hmarker : ∀ n ∈ names, isMarkerCol n = false)
    (hnd : ∀ n ∈ names, n ≠ strL ("Date")) (hnodup : names.Nodup) :
    dupLabels (strL ("Date") :: names) = false := by
  unfold dupLabels
  dsimp only
  have h1 : names.map cleanName = names :=
    (List.map_congr_left (fun n hn => (hclean n hn : cleanName n = id n)) :
        names.map cleanName = names.map id).trans (List.map_id _)
  rw [h1]
  have h2 : names.filter (fun c => !isMarkerCol c) = names :=
    List.filter_eq_self.mpr (fun a ha => by simp [hmarker a ha])
  rw [h2]
  have h3 : names.contains (strL ("Date")) = false := by
    by_contra hc
    rw [Bool.not_eq_false] at hc
    exact hnd _ (List.mem_of_elem_eq_true hc) rfl
  rw [h3, hasDup_eq_false names hnodup]
  rfl

theorem load_roundtrip (text : Str) (t : TTable)
    (hload : load_trends_csv text = .ok t)
    (hne : t.names ≠ [])
    (hnn : ∀ n ∈ t.names, n ≠ [])
    (hchars : ∀ n ∈ t.names, ∀ c ∈ n, c ≠ ',' ∧ c ≠ '\n') :
    load_trends_csv (to_csv t) = .ok t := by
  obtain ⟨raw, hraw, hdupF, hteq, hwraw⟩ := loadWith_ok to_datetime text t hload
  have hsome : ∀ r ∈ t.rows, r.1.isSome = true := by
    rw [hteq]
    exact normalizeWith_rows_isSome to_datetime raw
  have hsorted : t.rows.Pairwise (fun a b => rowKey a ≤ rowKey b) := by
    rw [hteq]
    exact normalizeWith_rows_sorted to_datetime raw
  have hdok : ∀ r ∈ t.rows, ∀ dt, r.1 = some dt → dateOK dt := by
    rw [hteq]
    exact normalizeFrame_rows_dateOK raw
  have hqok : ∀ r ∈ t.rows, ∀ v ∈ r.2, ∀ q, v = some q → decOK q := by
    rw [hteq]
    exact normalizeWith_rows_decOK to_datetime raw
  cases hh : raw.header with
  | nil =>
    exfalso
    apply hne
    rw [hteq]
    have hraweq : raw = ⟨[], raw.rows⟩ := by rw [← hh]
    rw [hraweq]
    rfl
  | cons h0 hs =>
    have hraweq : raw = ⟨h0 :: hs, raw.rows⟩ := by rw [← hh]
    have hnames : t.names = (hs.map cleanName).filter (fun c => !isMarkerCol c) := by
      rw [hteq, hraweq]
      exact normalizeWith_names to_datetime h0 hs raw.rows
    have hclean : ∀ n ∈ t.names, cleanName n = n := by
      intro n hn
      rw [hnames] at hn
      obtain ⟨x, _, rfl⟩ := List.mem_map.mp (List.mem_filter.mp hn).1
      exact cleanName_idem x
    have hmarker : ∀ n ∈ t.names, isMarkerCol n = false := by
      intro n hn
      rw [hnames] at hn
      have := (List.mem_filter.mp hn).2
      simpa using this
    rw [hh] at hdupF
    unfold dupLabels at hdupF
    dsimp only at hdupF
    rw [Bool.or_eq_false_iff] at hdupF
    have hnd : ∀ n ∈ t.names, n ≠ strL ("Date") := by
      intro n hn hdate
      subst hdate
      rw [hnames] at hn
      have hc : ((hs.map cleanName).filter (fun c => !isMarkerCol c)).contains
          (strL ("Date")) = true := List.elem_eq_true_of_mem hn
      rw [hc] at hdupF
      exact Bool.noConfusion hdupF.1
    have hnodup : t.names.Nodup := by
      rw [hnames]
      exact nodup_of_hasDup_eq_false _ hdupF.2
    have hw : ∀ r ∈ t.rows, r.2.length = t.names.length := by
      intro r hr
      rw [hnames]
      rw [hteq, hraweq] at hr
      apply normalizeWith_rows_width to_datetime h0 hs raw.rows ?_ r hr
      intro row hrow
      rw [hwraw row hrow, hh]
      rfl
    unfold load_trends_csv loadWith
    rw [read_to_csv t hne hnodup hnn hnd hchars hsome hw]
    simp only [Except.bind]
    rw [if_neg (by
      rw [dupLabels_false_of_names t.names hclean hmarker hnd hnodup]
      exact Bool.noConfusion)]
    rw [normalize_serialized t hne hclean hmarker hsome hdok hqok hw hsorted]

/-! ## Claim theorems -/

/-- C1: the spec claims the parser never raises to the caller for malformed
content and degrades to an empty table; in the code an empty readable file
makes `pd.read_csv` raise `EmptyDataError`, and an input whose cleaned
column labels collide makes line 103 raise `ValueError` (duplicate `Date`)
or line 108 raise `AttributeError` (duplicate series label); none of these
is caught, so parse errors do cross the boundary (see `C1_counterexample`).
Amended: the parser returns a table exactly for well-formed inputs
(`goodContent`): the reader finds a header and no over-wide row, and the
cleaned labels are collision free; other malformed content surfaces to the
caller as an error. -/
theorem C1_ok_on_good_content (text : Str) (h : goodContent text = true) :
    (load_trends_csv text).isOk = true :=
  load_ok_of_good text h

theorem C1_ok_on_good_content_witness :
    goodContent exGood = true ∧ (load_trends_csv exGood).isOk = true :=
  ⟨by decide, C1_ok_on_good_content exGood (by decide)⟩

/-- C1 counterexample: `fsOne` is a readable source holding an empty file,
yet the parser reports a parse error upward instead of an empty table; and
content whose cleaned labels collide (a second column named `Date`, or two
columns cleaning to the same name) also raises instead of degrading. -/
theorem C1_counterexample :
    fsOne ("data.csv") = some exEmpty ∧
      load_trends_from_path fsOne ("data.csv") = .error .parseError ∧
      load_trends_csv exDupDate = .error () ∧
      load_trends_csv exDupName = .error () :=
  ⟨by decide, by decide, by decide, by decide⟩

/-- C2: the spec claims an all-null column is dropped from the output; in the
code every surviving column passes the `is_numeric_dtype` test because
`to_numeric(errors="coerce")` always yields a numeric dtype, so the output
column set depends only on the header: the cleaned names minus the is-partial
markers, with cell values never consulted (see `C2_counterexample` for an
all-null column that is retained). -/
theorem C2_names_ignore_values (tp : List (Option Str) → List (Option Date))
    (h0 : Str) (hs : List Str) (rows : List (List (Option Str))) :
    (normalizeWith tp ⟨h0 :: hs, rows⟩).names
      = (hs.map cleanName).filter (fun c => !isMarkerCol c) :=
  normalizeWith_names tp h0 hs rows

/-- C2 counterexample: column `B` of `exMixed` has zero parseable numeric
values, yet it appears in the output with its cell as null. -/
theorem C2_counterexample :
    load_trends_csv exMixed
      = .ok ⟨[strL ("A"), strL ("B")], [(some ⟨2024, 1, 1⟩, [some 5, none])]⟩ := by
  decide

/-- C3: the spec claims a failed month-first pass is retried with
day-before-month ordering when more than half of the values fail; the code
calls `to_datetime` exactly once: the format guessed from the first non-null
element is applied to the whole column with no second pass (see
`C3_counterexample`, where the spec-modelled retry keeps three rows but the
code keeps one). -/
theorem C3_single_pass (cells : List (Option Str)) (c0 : Str) (f : DFormat)
    (h1 : firstSome cells = some c0) (h2 : guessFormat c0 = some f) :
    to_datetime cells = cells.map (fun c => c.bind (parseWithFormat f)) := by
  unfold to_datetime
  rw [h1]
  dsimp only
  rw [h2]

theorem C3_single_pass_witness :
    firstSome [some (strL ("2024-01-01")), some (strL ("13/01/2024"))]
        = some (strL ("2024-01-01")) ∧
      to_datetime [some (strL ("2024-01-01")), some (strL ("13/01/2024"))]
        = [some (strL ("2024-01-01")), some (strL ("13/01/2024"))].map
            (fun c => c.bind (parseWithFormat .iso)) :=
  ⟨by decide,
    C3_single_pass [some (strL ("2024-01-01")), some (strL ("13/01/2024"))]
      (strL ("2024-01-01")) .iso (by decide) (by decide)⟩

/-- C3 counterexample: on `exRetry`, two of three dates fail the guessed ISO
format and are dropped; the spec-modelled day-first retry would keep all
three rows. -/
theorem C3_counterexample :
    load_trends_csv exRetry = .ok ⟨[strL ("A")], [(some ⟨2024, 1, 1⟩, [some 5])]⟩ ∧
      loadWith to_datetime_retry exRetry
        = .ok ⟨[strL ("A")],
            [(some ⟨2024, 1, 1⟩, [some 5]), (some ⟨2024, 1, 13⟩, [some 6]),
              (some ⟨2024, 1, 14⟩, [some 7])]⟩ :=
  ⟨by decide, by decide⟩

/-- C4: the spec claims coercion strips every character that is not a digit,
a decimal point, or a LEADING minus sign; the code's regex `[^\d\.\-]` keeps
every minus sign wherever it occurs, so an embedded dash survives and the
cell fails to parse to null instead of yielding a number (see
`C4_counterexample`). Amended: for an arbitrary cell embedded in a one-series
CSV, the output value is exactly `parseNumber (cleanNumStr s)`, where
`cleanNumStr` keeps all digits, dots and dashes, and failures become null. -/
theorem C4_cell_coercion (s : Str) (hnol : ∀ c ∈ s, c ≠ '\n')
    (hnoc : ∀ c ∈ s, c ≠ ',') :
    load_trends_csv (mkCellInput s)
      = .ok ⟨[strL ("A")], [(some ⟨2024, 1, 1⟩, [parseNumber (cleanNumStr s)])]⟩ :=
  load_mkCellInput s hnol hnoc

theorem C4_cell_coercion_witness :
    load_trends_csv (mkCellInput (strL ("5-6")))
      = .ok ⟨[strL ("A")],
          [(some ⟨2024, 1, 1⟩, [parseNumber (cleanNumStr (strL ("5-6")))])]⟩ :=
  C4_cell_coercion (strL ("5-6")) (by decide) (by decide)

/-- C4 counterexample: under the code the cell `5-6` becomes null because the
interior dash is kept; under the spec's leading-minus-only stripping it would
parse as `56`. -/
theorem C4_counterexample :
    load_trends_csv exMinus = .ok ⟨[strL ("A")], [(some ⟨2024, 1, 1⟩, [none])]⟩ ∧
      parseNumber (cleanNumStrSpec (strL ("5-6"))) = some 56 :=
  ⟨by decide, by decide⟩

/-- C5: the spec claims a date-range cell has its first date token extracted
before parsing so the row is kept; the code hands the raw cell to
`to_datetime`, the range string fails to parse, and the row is dropped: the
output row count equals the number of cells the single parsing pass accepts
as-is (see `C5_counterexample`, where the spec-modelled extraction keeps the
range row but the code drops it). -/
theorem C5_unparsed_rows_dropped (h0 : Str) (hs : List Str)
    (rows : List (List (Option Str)))
    (hne : (hs.map cleanName).filter (fun c => !isMarkerCol c) ≠ []) :
    (normalizeFrame ⟨h0 :: hs, rows⟩).rows.length
      = (to_datetime (timeColumnOf ⟨h0 :: hs, rows⟩)).countP (fun d => d.isSome) :=
  normalizeFrame_rows_count h0 hs rows hne

theorem C5_unparsed_rows_dropped_witness :
    ([strL ("A")].map cleanName).filter (fun c => !isMarkerCol c) ≠ [] ∧
      (normalizeFrame ⟨[strL ("Week"), strL ("A")],
          [[some (strL ("2024-01-01 - 2024-01-07")), some (strL ("5"))],
            [some (strL ("2024-01-08")), some (strL ("6"))]]⟩).rows.length
        = (to_datetime (timeColumnOf ⟨[strL ("Week"), strL ("A")],
            [[some (strL ("2024-01-01 - 2024-01-07")), some (strL ("5"))],
              [some (strL ("2024-01-08")), some (strL ("6"))]]⟩)).countP
            (fun d => d.isSome) :=
  ⟨by decide, C5_unparsed_rows_dropped (strL ("Week")) [strL ("A")] _ (by decide)⟩

/-- C5 counterexample: the range row of `exRange` is dropped by the code,
while the spec-modelled first-token extraction keeps it with the range's
start date. -/
theorem C5_counterexample :
    load_trends_csv exRange = .ok ⟨[strL ("A")], [(some ⟨2024, 1, 8⟩, [some 6])]⟩ ∧
      loadWith to_datetime_rangefix exRange
        = .ok ⟨[strL ("A")],
            [(some ⟨2024, 1, 1⟩, [some 5]), (some ⟨2024, 1, 8⟩, [some 6])]⟩ :=
  ⟨by decide, by decide⟩

/-- C6: every row of a table returned by the parser carries a non-null time
value, and the rows are sorted ascending by time. Confirmed: the dropna step
removes null times and the final `sort_values` pass sorts what remains. -/
theorem C6_rows_nonnull_sorted (text : Str) (t : TTable)
    (h : load_trends_csv text = .ok t) :
    (∀ r ∈ t.rows, r.1.isSome = true) ∧
      t.rows.Pairwise (fun a b => rowKey a ≤ rowKey b) := by
  obtain ⟨raw, -, -, hteq, -⟩ := loadWith_ok to_datetime text t h
  constructor
  · rw [hteq]
    exact normalizeWith_rows_isSome to_datetime raw
  · rw [hteq]
    exact normalizeWith_rows_sorted to_datetime raw

theorem C6_rows_nonnull_sorted_witness :
    load_trends_csv exUnsorted
        = .ok ⟨[strL ("A")],
            [(some ⟨2024, 1, 1⟩, [some 5]), (some ⟨2024, 1, 8⟩, [some 6])]⟩ ∧
      ((∀ r ∈ [((some ⟨2024, 1, 1⟩ : Option Date), [some (5 : ℚ)]),
            (some ⟨2024, 1, 8⟩, [some 6])], r.1.isSome = true) ∧
        List.Pairwise (fun a b => rowKey a ≤ rowKey b)
          [((some ⟨2024, 1, 1⟩ : Option Date), [some (5 : ℚ)]),
            (some ⟨2024, 1, 8⟩, [some 6])]) :=
  ⟨by decide,
    C6_rows_nonnull_sorted exUnsorted
      ⟨[strL ("A")], [(some ⟨2024, 1, 1⟩, [some 5]), (some ⟨2024, 1, 8⟩, [some 6])]⟩
      (by decide)⟩

/-- C7: a column whose trimmed name case-insensitively equals the is-partial
marker never appears in the output. Confirmed: the drop step removes every
such column before coercion. -/
theorem C7_marker_columns_absent (text : Str) (t : TTable)
    (h : load_trends_csv text = .ok t) :
    ∀ n ∈ t.names, isMarkerCol n = false := by
  obtain ⟨raw, -, -, hteq, -⟩ := loadWith_ok to_datetime text t h
  cases hh : raw.header with
  | nil =>
    intro n hn
    rw [hteq] at hn
    have hraweq : raw = ⟨[], raw.rows⟩ := by rw [← hh]
    rw [hraweq] at hn
    simp [normalizeWith] at hn
  | cons h0 hs =>
    have hraweq : raw = ⟨h0 :: hs, raw.rows⟩ := by rw [← hh]
    intro n hn
    rw [hteq, hraweq, normalizeWith_names] at hn
    have := (List.mem_filter.mp hn).2
    simpa using this

theorem C7_marker_columns_absent_witness :
    load_trends_csv exPartial = .ok ⟨[strL ("A")], [(some ⟨2024, 1, 1⟩, [some 5])]⟩ ∧
      ∀ n ∈ [strL ("A")], isMarkerCol n = false :=
  ⟨by decide,
    C7_marker_columns_absent exPartial
      ⟨[strL ("A")], [(some ⟨2024, 1, 1⟩, [some 5])]⟩ (by decide)⟩

/-- C8: the keyword scan locates the header exactly after any banner prefix
that contains no keyword-bearing delimited line (up to the 100-line scan
limit), and the ISO-date fallback locates it one line above the first
delimited line carrying a `YYYY-MM-DD` date. Confirmed for both branches of
`findHeaderIdx`. -/
theorem C8_header_location :
    (∀ banners hdr rest, banners.length ≤ 99 →
        (∀ b ∈ banners, isHeaderLine b = false) → isHeaderLine hdr = true →
        findHeaderIdx (banners ++ hdr :: rest) = banners.length) ∧
      (∀ lines i, (∀ l ∈ lines.take 100, isHeaderLine l = false) →
        List.findIdx? isDateLine (lines.take 100) 0 = some i →
        findHeaderIdx lines = i - 1) :=
  ⟨fun b h r h1 h2 h3 => findHeaderIdx_banners b h r h1 h2 h3,
    fun l i h1 h2 => findHeaderIdx_fallback l i h1 h2⟩

theorem C8_header_location_witness :
    findHeaderIdx (splitLines exBanner) = 2 ∧
      findHeaderIdx [strL ("x"), strL ("2024-01-01,5")] = 0 := by
  constructor
  · rw [show splitLines exBanner
        = [strL ("Categoria: Tutte le categorie"), [],
            strL ("Week,AI: (Italy),isPartial"), strL ("2024-01-01,45,False"),
            strL ("2024-01-08,,True")] from by decide]
    exact C8_header_location.1 [strL ("Categoria: Tutte le categorie"), []]
      (strL ("Week,AI: (Italy),isPartial"))
      [strL ("2024-01-01,45,False"), strL ("2024-01-08,,True")]
      (by decide) (by decide) (by decide)
  · exact C8_header_location.2 [strL ("x"), strL ("2024-01-01,5")] 1
      (by decide) (by decide)

/-- C9: the spec claims any stream input is restored to its starting position
after the call; the code only attempts `seek(0)` inside a `try/except: pass`,
so a non-seekable stream stays consumed (see `C9_counterexample`). Amended:
a SEEKABLE stream is restored to position zero after the call. -/
theorem C9_seekable_stream_restored (b : ByteStream) (h : b.seekable = true) :
    (load_trends_from_stream b).2 = ⟨b.content, 0, true⟩ := by
  unfold load_trends_from_stream streamReadAll streamSeekStart
  dsimp only
  rw [if_pos h, h]

theorem C9_seekable_stream_restored_witness :
    (load_trends_from_stream ⟨exGood, 0, true⟩).2 = ⟨exGood, 0, true⟩ :=
  C9_seekable_stream_restored ⟨exGood, 0, true⟩ rfl

/-- C9 counterexample: a non-seekable stream is left at end-of-content, so a
second read observes nothing although the first read returned real content. -/
theorem C9_counterexample :
    exGood ≠ [] ∧
      (load_trends_from_stream ⟨exGood, 0, false⟩).2
        = ⟨exGood, exGood.length, false⟩ ∧
      (streamReadAll (load_trends_from_stream ⟨exGood, 0, false⟩).2).1 = [] :=
  ⟨by decide, by decide, by decide⟩

/-- C10: the spec claims parsing a parsed table's canonical CSV re-export
yields an identical table; this fails when a series name is the empty string
(a whitespace-only header cell cleans to an empty name, the re-exported
header then holds an empty field, which pandas renames to `Unnamed: 1` and
the cleaning step truncates to `Unnamed`, see `C10_counterexample`).
Amended: the round trip is the identity for every parser-produced table
whose series names are non-empty and free of separator and newline
characters (parser-produced names are automatically pairwise distinct and
distinct from `Date`, since colliding labels make the parser raise). -/
theorem C10_roundtrip (text : Str) (t : TTable)
    (hload : load_trends_csv text = .ok t)
    (hne : t.names ≠ [])
    (hnn : ∀ n ∈ t.names, n ≠ [])
    (hchars : ∀ n ∈ t.names, ∀ c ∈ n, c ≠ ',' ∧ c ≠ '\n') :
    load_trends_csv (to_csv t) = .ok t :=
  load_roundtrip text t hload hne hnn hchars

theorem C10_roundtrip_witness :
    load_trends_csv exGood = .ok ⟨[strL ("A")], [(some ⟨2024, 1, 1⟩, [some 5])]⟩ ∧
      load_trends_csv (to_csv ⟨[strL ("A")], [(some ⟨2024, 1, 1⟩, [some 5])]⟩)
        = .ok ⟨[strL ("A")], [(some ⟨2024, 1, 1⟩, [some 5])]⟩ :=
  ⟨by decide,
    C10_roundtrip exGood ⟨[strL ("A")], [(some ⟨2024, 1, 1⟩, [some 5])]⟩
      (by decide) (by decide) (by decide) (by decide)⟩

/-- C10 counterexample: `exEmptyName` (whitespace-only second header cell)
produces a table whose single series name is the empty string; its CSV
export writes the header `Date,`, and re-parsing names the empty field
`Unnamed: 1`, which the cleaning step truncates to `Unnamed`, so the round
trip is not the identity. -/
theorem C10_counterexample :
    load_trends_csv exEmptyName
        = .ok ⟨[([] : Str)], [(some ⟨2024, 1, 1⟩, [some 5])]⟩ ∧
      load_trends_csv (to_csv ⟨[([] : Str)], [(some ⟨2024, 1, 1⟩, [some 5])]⟩)
        = .ok ⟨[strL ("Unnamed")], [(some ⟨2024, 1, 1⟩, [some 5])]⟩ ∧
      load_trends_csv (to_csv ⟨[([] : Str)], [(some ⟨2024, 1, 1⟩, [some 5])]⟩)
        ≠ .ok ⟨[([] : Str)], [(some ⟨2024, 1, 1⟩, [some 5])]⟩ :=
  ⟨by decide, by decide, by decide⟩
